import Mathlib

/-!
Verification of the hubble per-user conflict-resolution store.

The repository ships the acceptance tests of the Cast and Reaction stores
(`src/apps/hubble/src/storage/stores/reactionStore.test.ts`,
`src/unnamed/part_001`) together with the message factories, while the store
implementation itself (the generic CRDT store, `castStore.ts`,
`reactionStore.ts`) is not part of the sources.  The definitions below are
therefore a model of the missing engine, built from the specification's
algorithm (spec.md §3, §4.1) and pinned wherever possible to the exact
behaviour the in-repository acceptance tests demand.
-/

set_option linter.unusedSectionVars false

namespace Hubble

/-! ### Byte and key comparison

Modelled from the spec: `TsHash` ordering (§3) — "compared lexicographically
on the concatenation; timestamp dominates, hash is the tie-break" — and from
`bytesCompare` of `@farcaster/utils`, which the acceptance tests import.
Bytes are modelled as `List Nat`; three-way comparisons return `Ordering`.
-/

/-- Three-way comparison of natural numbers. -/
def natCompare (a b : Nat) : Ordering :=
  if a < b then .lt else if b < a then .gt else .eq

/-- Byte-lexicographic three-way comparison, as `bytesCompare` of
`@farcaster/utils`: first differing byte decides; a strict prefix is
smaller. -/
def bytesCompare : List Nat → List Nat → Ordering
  | [], [] => .eq
  | [], _ :: _ => .lt
  | _ :: _, [] => .gt
  | a :: as, b :: bs =>
    if a < b then .lt else if b < a then .gt else bytesCompare as bs

/-- Comparison keys: a lexicographic triple (two numeric components followed
by a byte string).  Both stores' total orders and the chronological `TsHash`
order are instances. -/
abbrev K : Type := Nat × Nat × List Nat

/-- Lexicographic three-way comparison on keys. -/
def keyCompare (a b : K) : Ordering :=
  (natCompare a.1 b.1).then ((natCompare a.2.1 b.2.1).then (bytesCompare a.2.2 b.2.2))

/-! ### Data model

Modelled from the spec (§3): a message carries an author `fid`, a kind (the
"Add" variant or the complementary "Remove" variant), a logical `timestamp`,
a 20-byte content `hash`, and the `signer` key that produced its signature.
Two messages conflict iff they target the same logical conflict slot; the
slot key is kind-specific, so it is kept as a type parameter `σ`
(Reaction store: `(reactionType, targetCastId)`; Cast store: the target cast
hash). -/

/-- The two variants a store handles. -/
inductive Kind : Type
  | add : Kind
  | remove : Kind
deriving DecidableEq

/-- Numeric rank used inside total-order keys; Remove ranks above Add, which
encodes the remove-wins tie-break. -/
def kindRank : Kind → Nat
  | .add => 0
  | .remove => 1

/-- A validated message as the store sees it (spec §3).  The signature and
network fields play no role in conflict resolution and are omitted; `signer`
is kept because revocation selects on it. -/
structure Msg (σ : Type) : Type where
  kind : Kind
  fid : Nat
  slot : σ
  ts : Nat
  hash : List Nat
  signer : Nat
deriving DecidableEq

/-- Total-order key of the Reaction store, read off the spec's
conflict-resolution rule (§4.1): timestamp dominates; at equal timestamp a
Remove outranks an Add; between equal kinds the byte-lexicographic hash
decides. -/
def rKey {σ : Type} (m : Msg σ) : K := (m.ts, kindRank m.kind, m.hash)

/-- Total-order key of the Cast store.  Modelled from the spec amended by the
cast-store acceptance tests (src/unnamed/part_001, merge suites): there a
CastRemove defeats a CastAdd regardless of timestamps, so the kind rank
dominates; between equal kinds timestamp and then hash decide. -/
def cKey {σ : Type} (m : Msg σ) : K := (kindRank m.kind, m.ts, m.hash)

/-- Chronological `TsHash` key (§3): timestamp then hash, no kind
preference.  The middle component is constant so `keyCompare` on it is the
plain `(timestamp, hash)` lexicographic order. -/
def tsKey {σ : Type} (m : Msg σ) : K := (m.ts, 0, m.hash)

/-! ### The generic store engine

Modelled from the spec (§4.1 `merge`): the store state is the list of live
(primary) records; at most one record is live per `(fid, slot)`.  `merge`
computes the incoming key, rejects an exact duplicate (a live record with
this exact hash, §4.1 step 2), fetches the current winner of the slot,
applies the conflict-resolution rule, and on a win atomically deletes the
superseded record and inserts the new winner. -/

variable {σ : Type} [DecidableEq σ]

/-- The currently winning record of a conflict slot, if any. -/
def liveAt (s : List (Msg σ)) (fid : Nat) (slot : σ) : Option (Msg σ) :=
  s.find? (fun z => decide (z.fid = fid ∧ z.slot = slot))

/-- Spec §4.1 step 2: does a live record carry this exact hash? -/
def hashDup (s : List (Msg σ)) (m : Msg σ) : Bool :=
  s.any (fun z => decide (z.hash = m.hash))

/-- Atomic replace: delete whatever occupies the slot, insert the winner. -/
def insertMsg (s : List (Msg σ)) (m : Msg σ) : List (Msg σ) :=
  m :: s.filter (fun z => !decide (z.fid = m.fid ∧ z.slot = m.slot))

/-- Decision of one `merge` call: admitted (with the records it superseded),
rejected as an exact duplicate, or rejected as losing to the existing record
of the given kind. -/
inductive Outcome (σ : Type) : Type
  | merged : List (Msg σ) → Outcome σ
  | duplicate : Outcome σ
  | conflict : Kind → Outcome σ
deriving DecidableEq

/-- Result of one `merge` call: the new store plus the decision. -/
structure MergeRes (σ : Type) : Type where
  store : List (Msg σ)
  out : Outcome σ
deriving DecidableEq

/-- One `merge` call (spec §4.1), parameterized by the store's total-order
key (`rKey` for the Reaction store, `cKey` for the Cast store). -/
def mergeStep (key : Msg σ → K) (s : List (Msg σ)) (m : Msg σ) : MergeRes σ :=
  if hashDup s m then ⟨s, .duplicate⟩
  else
    match liveAt s m.fid m.slot with
    | none => ⟨insertMsg s m, .merged []⟩
    | some e =>
      if keyCompare (key m) (key e) = .gt then ⟨insertMsg s m, .merged [e]⟩
      else ⟨s, .conflict e.kind⟩

/-- Merge events (spec §4.1 step 8): exactly one event carrying
`(winner, superseded)` on success, nothing on a rejection. -/
def eventsOf (m : Msg σ) : Outcome σ → List (Msg σ × List (Msg σ))
  | .merged sup => [(m, sup)]
  | .duplicate => []
  | .conflict _ => []

/-- Fold a list of messages through `merge`, ignoring rejections. -/
def mergeAll (key : Msg σ → K) (l : List (Msg σ)) : List (Msg σ) :=
  l.foldl (fun s m => (mergeStep key s m).store) []

/-- The effect of one merge on a single conflict slot: no existing record
admits the message; otherwise the comparison decides. -/
def slotStep (key : Msg σ → K) : Option (Msg σ) → Msg σ → Option (Msg σ)
  | none, m => some m
  | some e, m => if keyCompare (key m) (key e) = .gt then some m else some e

/-! ### Pruning and revocation (spec §4.1) -/

/-- Live messages of one fid. -/
def liveFor (s : List (Msg σ)) (fid : Nat) : List (Msg σ) :=
  s.filter (fun z => decide (z.fid = fid))

/-- Age test against the time bound: the message is older than
`pruneTimeLimit` seconds measured at protocol time `now`. -/
def tooOld (timeLimit now : Nat) (m : Msg σ) : Bool :=
  decide (m.ts + timeLimit < now)

/-- The chronologically earliest message by ascending TsHash, Add and Remove
kinds interleaved with no kind preference. -/
def chronMin : List (Msg σ) → Option (Msg σ)
  | [] => none
  | m :: rest =>
    match chronMin rest with
    | none => some m
    | some b => if keyCompare (tsKey b) (tsKey m) = .lt then some b else some m

/-- The pruning loop (spec §4.1 `pruneMessages`): while the live count
exceeds `sizeLimit` or the chronological minimum is older than `timeLimit`,
pop that minimum.  `fuel` bounds the recursion; callers pass the live
count. -/
def pruneGo : Nat → List (Msg σ) → Nat → Nat → Nat → Nat → List (Msg σ) × List (Msg σ)
  | 0, s, _, _, _, _ => (s, [])
  | Nat.succ fuel, s, fid, sizeLimit, timeLimit, now =>
    match chronMin (liveFor s fid) with
    | none => (s, [])
    | some m =>
      if sizeLimit < (liveFor s fid).length || tooOld timeLimit now m then
        let r := pruneGo fuel (s.erase m) fid sizeLimit timeLimit now
        (r.1, m :: r.2)
      else (s, [])

/-- Operation `pruneMessages(fid)`: returns the store after pruning plus the pruned
messages in the order they were popped. -/
def pruneMessages (s : List (Msg σ)) (fid sizeLimit timeLimit now : Nat) :
    List (Msg σ) × List (Msg σ) :=
  pruneGo (liveFor s fid).length s fid sizeLimit timeLimit now

/-- Operation `revokeMessagesBySigner(fid, signer)` (spec §4.1): delete every live
message of the fid authored under the signer; returns the remaining store
and the revoked messages. -/
def revokeMessagesBySigner (s : List (Msg σ)) (fid signer : Nat) :
    List (Msg σ) × List (Msg σ) :=
  (s.filter (fun z => !decide (z.fid = fid ∧ z.signer = signer)),
   s.filter (fun z => decide (z.fid = fid ∧ z.signer = signer)))

/-- Store states reachable from the empty store by any sequence of merge,
prune and revoke operations. -/
inductive Reachable (key : Msg σ → K) : List (Msg σ) → Prop
  | empty : Reachable key []
  | merge (s : List (Msg σ)) (m : Msg σ) :
      Reachable key s → Reachable key (mergeStep key s m).store
  | prune (s : List (Msg σ)) (fid sizeLimit timeLimit now : Nat) :
      Reachable key s → Reachable key (pruneMessages s fid sizeLimit timeLimit now).1
  | revoke (s : List (Msg σ)) (fid signer : Nat) :
      Reachable key s → Reachable key (revokeMessagesBySigner s fid signer).1

/-- Invariant: at most one live record per conflict slot per fid (spec §3). -/
def SlotUnique (s : List (Msg σ)) : Prop :=
  s.Pairwise (fun a b => ¬(a.fid = b.fid ∧ a.slot = b.slot))

/-- The data model's premise (spec §3): the content hash identifies the
message — two messages of the collection with equal hash are the same
message. -/
def HashInj (l : List (Msg σ)) : Prop :=
  ∀ a ∈ l, ∀ b ∈ l, a.hash = b.hash → a = b

/-! ### Error surface (spec §7, texts from the acceptance tests) -/

/-- Error text of a duplicate rejection. -/
def duplicateText : String := "message has already been merged"

/-- Reaction-store conflict text: names the existing kind the message lost
to, as asserted by reactionStore.test.ts. -/
def reactionConflictText : Kind → String
  | .add => "message conflicts with a more recent ReactionAdd"
  | .remove => "message conflicts with a more recent ReactionRemove"

/-- Cast-store conflict text, as asserted by the cast acceptance tests: a
CastAdd losing to a CastRemove reports "conflicts with a CastRemove"
(timestamps are irrelevant there); remove-vs-remove losses report the
"more recent" form. -/
def castConflictText (incoming existing : Kind) : String :=
  match incoming, existing with
  | .add, .remove => "message conflicts with a CastRemove"
  | .remove, .remove => "message conflicts with a more recent CastRemove"
  | _, .add => "message conflicts with a more recent CastAdd"

/-- The `(errCode, message)` pair a Reaction-store merge rejection raises. -/
def reactionMergeError : Outcome (Nat × Nat) → Option (String × String)
  | .merged _ => none
  | .duplicate => some ("bad_request.duplicate", duplicateText)
  | .conflict k => some ("bad_request.conflict", reactionConflictText k)

/-! ### The Reaction store with its by-target-cast secondary index

Modelled from the spec (§3 store slot / secondary indices, §4.1 step 6,
§4.2): the Reaction store's slot key is `(reactionType, targetCastId)` and
its one secondary index maps a target cast to the primary `TsHash` of each
live ReactionAdd targeting it.  Index entries are created only for the Add
kind, and every batch that deletes a primary record deletes its index
entries. -/

/-- Reaction conflict-slot key: `(reactionType, targetCastId)`.  Cast ids
are abstracted to numbers. -/
abbrev RSlot : Type := Nat × Nat

/-- A by-target-cast index entry: the semantic key
`(targetCastId, reactionType, fid)` paired with the primary TsHash
pointer `(timestamp, hash)`. -/
abbrev REntry : Type := (Nat × Nat × Nat) × (Nat × List Nat)

/-- The index entry a ReactionAdd contributes. -/
def entryOf (m : Msg RSlot) : REntry :=
  ((m.slot.2, m.slot.1, m.fid), (m.ts, m.hash))

/-- Index entries contributed by a message: one for an Add, none for a
Remove. -/
def entriesOf (m : Msg RSlot) : List REntry :=
  match m.kind with
  | .add => [entryOf m]
  | .remove => []

/-- Reaction store state: primary records plus the by-target-cast index. -/
structure RStore : Type where
  msgs : List (Msg RSlot)
  index : List REntry
deriving DecidableEq

/-- Delete from the index every entry belonging to a deleted message (the
same atomic batch as the primary deletion, spec §3 invariants). -/
def dropEntries (idx : List REntry) (deleted : List (Msg RSlot)) : List REntry :=
  idx.filter (fun e => !deleted.any (fun d => decide (e ∈ entriesOf d)))

/-- Reaction-store merge: the generic engine on the primary records, plus
index maintenance inside the same batch. -/
def rMerge (st : RStore) (m : Msg RSlot) : RStore × Outcome RSlot :=
  let r := mergeStep rKey st.msgs m
  match r.out with
  | .merged sup => (⟨r.store, entriesOf m ++ dropEntries st.index sup⟩, r.out)
  | _ => (st, r.out)

/-- Reaction-store prune: prune primaries, drop the pruned entries. -/
def rPrune (st : RStore) (fid sizeLimit timeLimit now : Nat) :
    RStore × List (Msg RSlot) :=
  let r := pruneMessages st.msgs fid sizeLimit timeLimit now
  (⟨r.1, dropEntries st.index r.2⟩, r.2)

/-- Reaction-store revoke: revoke primaries, drop the revoked entries. -/
def rRevoke (st : RStore) (fid signer : Nat) : RStore × List (Msg RSlot) :=
  let r := revokeMessagesBySigner st.msgs fid signer
  (⟨r.1, dropEntries st.index r.2⟩, r.2)

/-- Reaction-store states reachable from empty. -/
inductive ReachableR : RStore → Prop
  | empty : ReachableR ⟨[], []⟩
  | merge (st : RStore) (m : Msg RSlot) :
      ReachableR st → ReachableR (rMerge st m).1
  | prune (st : RStore) (fid sizeLimit timeLimit now : Nat) :
      ReachableR st → ReachableR (rPrune st fid sizeLimit timeLimit now).1
  | revoke (st : RStore) (fid signer : Nat) :
      ReachableR st → ReachableR (rRevoke st fid signer).1

/-- Primary-record lookup by `(fid, TsHash)`, as `getMessage`. -/
def lookupPrimary (msgs : List (Msg RSlot)) (fid ts : Nat) (h : List Nat) :
    Option (Msg RSlot) :=
  msgs.find? (fun z => decide (z.fid = fid ∧ z.ts = ts ∧ z.hash = h))

/-- Getter `getReactionsByTargetCast(target)`: scan the by-target index for the
target and resolve each entry through the primary records. -/
def getReactionsByTargetCast (st : RStore) (target : Nat) : List (Msg RSlot) :=
  st.index.filterMap (fun e =>
    if e.1.1 = target then lookupPrimary st.msgs e.1.2.2 e.2.1 e.2.2 else none)

/-- Getter `getReactionRemove(fid, type, target)`: the live ReactionRemove of the
slot, if any. -/
def getReactionRemove (st : RStore) (fid rtype target : Nat) :
    Option (Msg RSlot) :=
  st.msgs.find? (fun z =>
    decide (z.kind = Kind.remove ∧ z.fid = fid ∧ z.slot = (rtype, target)))

/-! ## Theorems -/

/-! ### Comparison laws -/

theorem natCompare_swap (a b : Nat) : (natCompare a b).swap = natCompare b a := by
  unfold natCompare
  rcases Nat.lt_trichotomy a b with h | h | h
  · simp [h, Nat.lt_asymm h, Ordering.swap]
  · subst h
    simp [Nat.lt_irrefl, Ordering.swap]
  · simp [h, Nat.lt_asymm h, Ordering.swap]

theorem natCompare_eq_iff {a b : Nat} : natCompare a b = .eq ↔ a = b := by
  unfold natCompare
  split <;> rename_i h
  · simp; omega
  · split <;> rename_i h2
    · simp; omega
    · simp; omega

theorem natCompare_lt_iff {a b : Nat} : natCompare a b = .lt ↔ a < b := by
  unfold natCompare
  split <;> rename_i h
  · simp [h]
  · split <;> simp <;> omega

theorem natCompare_self (a : Nat) : natCompare a a = .eq := by
  simp [natCompare_eq_iff]

theorem bytesCompare_swap : ∀ (a b : List Nat), (bytesCompare a b).swap = bytesCompare b a
  | [], [] => rfl
  | [], _ :: _ => rfl
  | _ :: _, [] => rfl
  | a :: as, b :: bs => by
    unfold bytesCompare
    rcases Nat.lt_trichotomy a b with h | h | h
    · simp [h, Nat.lt_asymm h, Ordering.swap]
    · subst h
      simp [Nat.lt_irrefl, bytesCompare_swap as bs]
    · simp [h, Nat.lt_asymm h, Ordering.swap]

theorem bytesCompare_eq_iff : ∀ {a b : List Nat}, bytesCompare a b = .eq ↔ a = b
  | [], [] => by simp [bytesCompare]
  | [], _ :: _ => by simp [bytesCompare]
  | _ :: _, [] => by simp [bytesCompare]
  | a :: as, b :: bs => by
    unfold bytesCompare
    rcases Nat.lt_trichotomy a b with h | h | h
    · simp [h]; omega
    · subst h
      simp [Nat.lt_irrefl, bytesCompare_eq_iff]
    · simp [h, Nat.lt_asymm h]; omega

theorem bytesCompare_self (a : List Nat) : bytesCompare a a = .eq := by
  simp [bytesCompare_eq_iff]

theorem bytesCompare_lt_trans :
    ∀ {a b c : List Nat}, bytesCompare a b = .lt → bytesCompare b c = .lt →
      bytesCompare a c = .lt
  | [], [], _ :: _, _, _ => rfl
  | [], _ :: _, _ :: _, _, _ => rfl
  | a :: as, b :: bs, c :: cs, hab, hbc => by
    unfold bytesCompare at hab hbc ⊢
    rcases Nat.lt_trichotomy a b with h1 | h1 | h1
    · rcases Nat.lt_trichotomy b c with h2 | h2 | h2
      · simp [Nat.lt_trans h1 h2]
      · subst h2; simp [h1]
      · simp [h2, Nat.lt_asymm h2] at hbc
    · subst h1
      rcases Nat.lt_trichotomy a c with h2 | h2 | h2
      · simp [h2]
      · subst h2
        simp [Nat.lt_irrefl] at hab hbc ⊢
        exact bytesCompare_lt_trans hab hbc
      · simp [h2, Nat.lt_asymm h2] at hbc
    · simp [h1, Nat.lt_asymm h1] at hab

theorem Ordering.then_eq_lt {o p : Ordering} :
    o.then p = .lt ↔ o = .lt ∨ (o = .eq ∧ p = .lt) := by
  cases o <;> simp [Ordering.then]

theorem Ordering.then_eq_eq {o p : Ordering} :
    o.then p = .eq ↔ o = .eq ∧ p = .eq := by
  cases o <;> simp [Ordering.then]

theorem Ordering.then_swap (o p : Ordering) :
    (o.then p).swap = o.swap.then p.swap := by
  cases o <;> simp [Ordering.then, Ordering.swap]

theorem keyCompare_swap (a b : K) : (keyCompare a b).swap = keyCompare b a := by
  unfold keyCompare
  rw [Ordering.then_swap, Ordering.then_swap, natCompare_swap, natCompare_swap,
    bytesCompare_swap]

theorem keyCompare_eq_iff {a b : K} : keyCompare a b = .eq ↔ a = b := by
  obtain ⟨a1, a2, a3⟩ := a
  obtain ⟨b1, b2, b3⟩ := b
  unfold keyCompare
  simp only [Ordering.then_eq_eq, natCompare_eq_iff, bytesCompare_eq_iff, Prod.mk.injEq]

theorem keyCompare_self (a : K) : keyCompare a a = .eq := by
  simp [keyCompare_eq_iff]

theorem keyCompare_lt_iff {a b : K} :
    keyCompare a b = .lt ↔
      a.1 < b.1 ∨ (a.1 = b.1 ∧ (a.2.1 < b.2.1 ∨
        (a.2.1 = b.2.1 ∧ bytesCompare a.2.2 b.2.2 = .lt))) := by
  unfold keyCompare
  simp only [Ordering.then_eq_lt, Ordering.then_eq_eq, natCompare_lt_iff, natCompare_eq_iff]

theorem keyCompare_lt_trans {a b c : K}
    (hab : keyCompare a b = .lt) (hbc : keyCompare b c = .lt) :
    keyCompare a c = .lt := by
  rw [keyCompare_lt_iff] at hab hbc ⊢
  rcases hab with h1 | ⟨e1, h1⟩
  · rcases hbc with h2 | ⟨e2, _⟩
    · exact Or.inl (Nat.lt_trans h1 h2)
    · exact Or.inl (e2 ▸ h1)
  · rcases hbc with h2 | ⟨e2, h2⟩
    · exact Or.inl (e1 ▸ h2)
    · refine Or.inr ⟨e1.trans e2, ?_⟩
      rcases h1 with h1 | ⟨f1, h1⟩
      · rcases h2 with h2 | ⟨f2, _⟩
        · exact Or.inl (Nat.lt_trans h1 h2)
        · exact Or.inl (f2 ▸ h1)
      · rcases h2 with h2 | ⟨f2, h2⟩
        · exact Or.inl (f1 ▸ h2)
        · exact Or.inr ⟨f1.trans f2, bytesCompare_lt_trans h1 h2⟩

theorem keyCompare_gt_iff_lt {a b : K} :
    keyCompare a b = .gt ↔ keyCompare b a = .lt := by
  have h := keyCompare_swap a b
  cases hab : keyCompare a b <;> rw [hab] at h <;>
    simp only [Ordering.swap] at h <;> rw [← h] <;> simp

theorem keyCompare_trichotomy (a b : K) :
    keyCompare a b = .lt ∨ keyCompare a b = .eq ∨ keyCompare a b = .gt := by
  cases keyCompare a b <;> simp

theorem keyCompare_gt_trans {a b c : K}
    (hab : keyCompare a b = .gt) (hbc : keyCompare b c = .gt) :
    keyCompare a c = .gt := by
  rw [keyCompare_gt_iff_lt] at hab hbc ⊢
  exact keyCompare_lt_trans hbc hab

theorem kindRank_inj : ∀ {a b : Kind}, kindRank a = kindRank b → a = b := by
  intro a b h
  cases a <;> cases b <;> simp [kindRank] at h ⊢

theorem rKey_eq_hash {σ : Type} {a b : Msg σ}
    (h : keyCompare (rKey a) (rKey b) = .eq) : a.hash = b.hash := by
  rw [keyCompare_eq_iff] at h
  exact congrArg (fun p => p.2.2) h

theorem cKey_eq_hash {σ : Type} {a b : Msg σ}
    (h : keyCompare (cKey a) (cKey b) = .eq) : a.hash = b.hash := by
  rw [keyCompare_eq_iff] at h
  exact congrArg (fun p => p.2.2) h

/-! ### Store basics -/

theorem liveAt_some {s : List (Msg σ)} {fid : Nat} {slot : σ} {e : Msg σ}
    (h : liveAt s fid slot = some e) : e ∈ s ∧ e.fid = fid ∧ e.slot = slot := by
  have hm := List.mem_of_find?_eq_some h
  have hp := List.find?_some h
  simp only [decide_eq_true_eq] at hp
  exact ⟨hm, hp⟩

theorem slotUnique_eq_of_mem {s : List (Msg σ)} (hu : SlotUnique s)
    {a b : Msg σ} (ha : a ∈ s) (hb : b ∈ s)
    (hf : a.fid = b.fid) (hs : a.slot = b.slot) : a = b := by
  by_contra hne
  have hsym : Symmetric (fun x y : Msg σ => ¬(x.fid = y.fid ∧ x.slot = y.slot)) := by
    intro x y hxy hyx
    exact hxy ⟨hyx.1.symm, hyx.2.symm⟩
  exact (hu.forall hsym ha hb hne) ⟨hf, hs⟩

theorem liveAt_eq_some_self {s : List (Msg σ)} (hu : SlotUnique s) {m : Msg σ}
    (hm : m ∈ s) : liveAt s m.fid m.slot = some m := by
  have hex : (s.find? (fun z => decide (z.fid = m.fid ∧ z.slot = m.slot))).isSome := by
    rw [List.find?_isSome]
    exact ⟨m, hm, by simp⟩
  obtain ⟨e, he⟩ := Option.isSome_iff_exists.mp hex
  have he' : liveAt s m.fid m.slot = some e := he
  obtain ⟨hems, hef, hes⟩ := liveAt_some he'
  rw [he', slotUnique_eq_of_mem hu hems hm hef hes]

theorem liveAt_insertMsg_self (s : List (Msg σ)) (m : Msg σ) :
    liveAt (insertMsg s m) m.fid m.slot = some m := by
  unfold liveAt insertMsg
  rw [List.find?_cons_of_pos]
  simp

theorem find?_filter_eq {α : Type} (p q : α → Bool)
    (himp : ∀ z, p z = true → q z = true) :
    ∀ l : List α, (l.filter q).find? p = l.find? p
  | [] => rfl
  | a :: l => by
    by_cases hq : q a = true
    · rw [List.filter_cons_of_pos hq]
      by_cases hp : p a = true
      · rw [List.find?_cons_of_pos _ hp, List.find?_cons_of_pos _ hp]
      · rw [List.find?_cons_of_neg _ (by simp [hp]), List.find?_cons_of_neg _ (by simp [hp])]
        exact find?_filter_eq p q himp l
    · rw [List.filter_cons_of_neg (by simp [hq])]
      have hp : ¬p a = true := fun h => hq (himp a h)
      rw [List.find?_cons_of_neg _ (by simp [hp])]
      exact find?_filter_eq p q himp l

theorem liveAt_insertMsg_other (s : List (Msg σ)) (m : Msg σ) {fid : Nat} {slot : σ}
    (hne : ¬(m.fid = fid ∧ m.slot = slot)) :
    liveAt (insertMsg s m) fid slot = liveAt s fid slot := by
  unfold liveAt insertMsg
  rw [List.find?_cons_of_neg]
  · refine find?_filter_eq _ _ ?_ s
    intro z hz
    simp only [decide_eq_true_eq] at hz
    simp only [Bool.not_eq_true', decide_eq_false_iff_not]
    intro hc
    exact hne ⟨hc.1 ▸ hz.1, hc.2 ▸ hz.2⟩
  · simp only [decide_eq_true_eq]
    exact fun hc => hne ⟨hc.1, hc.2⟩

theorem mem_insertMsg {s : List (Msg σ)} {m z : Msg σ}
    (h : z ∈ insertMsg s m) : z = m ∨ z ∈ s := by
  rcases List.mem_cons.mp h with h | h
  · exact Or.inl h
  · exact Or.inr (List.mem_filter.mp h).1

theorem mergeStep_store_mem {key : Msg σ → K} {s : List (Msg σ)} {m z : Msg σ}
    (h : z ∈ (mergeStep key s m).store) : z ∈ s ∨ z = m := by
  unfold mergeStep at h
  split at h
  · exact Or.inl h
  · split at h
    · rcases mem_insertMsg h with h | h
      · exact Or.inr h
      · exact Or.inl h
    · split at h
      · rcases mem_insertMsg h with h | h
        · exact Or.inr h
        · exact Or.inl h
      · exact Or.inl h

theorem slotUnique_insertMsg {s : List (Msg σ)} (hu : SlotUnique s) (m : Msg σ) :
    SlotUnique (insertMsg s m) := by
  unfold SlotUnique insertMsg
  refine List.Pairwise.cons ?_ (hu.filter _)
  intro z hz
  have hzf := (List.mem_filter.mp hz).2
  simp only [Bool.not_eq_true', decide_eq_false_iff_not] at hzf
  intro hc
  exact hzf ⟨hc.1.symm, hc.2.symm⟩

theorem slotUnique_mergeStep {key : Msg σ → K} {s : List (Msg σ)} (hu : SlotUnique s)
    (m : Msg σ) : SlotUnique (mergeStep key s m).store := by
  unfold mergeStep
  split
  · exact hu
  · split
    · exact slotUnique_insertMsg hu m
    · split
      · exact slotUnique_insertMsg hu m
      · exact hu

theorem pruneGo_sublist :
    ∀ (fuel : Nat) (s : List (Msg σ)) (fid a b c : Nat),
      List.Sublist (pruneGo fuel s fid a b c).1 s
  | 0, s, _, _, _, _ => List.Sublist.refl s
  | Nat.succ fuel, s, fid, a, b, c => by
    unfold pruneGo
    split
    · exact List.Sublist.refl s
    · rename_i m _
      split
      · exact (pruneGo_sublist fuel (s.erase m) fid a b c).trans (List.erase_sublist m s)
      · exact List.Sublist.refl s

theorem slotUnique_pruneMessages {s : List (Msg σ)} (hu : SlotUnique s)
    (fid a b c : Nat) : SlotUnique (pruneMessages s fid a b c).1 :=
  hu.sublist (pruneGo_sublist _ s fid a b c)

theorem slotUnique_revoke {s : List (Msg σ)} (hu : SlotUnique s) (fid signer : Nat) :
    SlotUnique (revokeMessagesBySigner s fid signer).1 :=
  hu.sublist (List.filter_sublist s)

theorem reachable_slotUnique {key : Msg σ → K} {s : List (Msg σ)}
    (h : Reachable key s) : SlotUnique s := by
  induction h with
  | empty => exact List.Pairwise.nil
  | merge s m _ ih => exact slotUnique_mergeStep ih m
  | prune s fid a b c _ ih => exact slotUnique_pruneMessages ih fid a b c
  | revoke s fid signer _ ih => exact slotUnique_revoke ih fid signer

/-! ### Convergence machinery

One merge only touches the slot of the incoming message; per slot the store
evolves by `slotStep`, a max under the store's total order.  Together with
the data model's premise that the hash identifies the message this yields
order-independence of the final per-slot state. -/

theorem mergeStep_liveAt {key : Msg σ → K} {s : List (Msg σ)} {m : Msg σ}
    (hu : SlotUnique s) (hfresh : ∀ z ∈ s, z.hash = m.hash → z = m)
    (fid : Nat) (slot : σ) :
    liveAt (mergeStep key s m).store fid slot =
      if m.fid = fid ∧ m.slot = slot then slotStep key (liveAt s fid slot) m
      else liveAt s fid slot := by
  unfold mergeStep
  by_cases hd : hashDup s m = true
  · rw [if_pos hd]
    unfold hashDup at hd
    rw [List.any_eq_true] at hd
    obtain ⟨z, hz, hzh⟩ := hd
    rw [decide_eq_true_eq] at hzh
    have hzm := hfresh z hz hzh
    subst hzm
    by_cases hms : z.fid = fid ∧ z.slot = slot
    · rw [if_pos hms]
      have hl : liveAt s fid slot = some z := by
        rw [← hms.1, ← hms.2]
        exact liveAt_eq_some_self hu hz
      rw [hl]
      simp [slotStep, keyCompare_self]
    · rw [if_neg hms]
  · rw [if_neg hd]
    split
    · rename_i hl
      dsimp only
      by_cases hms : m.fid = fid ∧ m.slot = slot
      · rw [if_pos hms]
        obtain ⟨h1, h2⟩ := hms
        subst h1
        subst h2
        rw [liveAt_insertMsg_self, hl]
        rfl
      · rw [if_neg hms]
        exact liveAt_insertMsg_other s m hms
    · rename_i e hl
      by_cases hgt : keyCompare (key m) (key e) = .gt
      · rw [if_pos hgt]
        dsimp only
        by_cases hms : m.fid = fid ∧ m.slot = slot
        · rw [if_pos hms]
          obtain ⟨h1, h2⟩ := hms
          subst h1
          subst h2
          rw [liveAt_insertMsg_self, hl]
          simp [slotStep, hgt]
        · rw [if_neg hms]
          exact liveAt_insertMsg_other s m hms
      · rw [if_neg hgt]
        dsimp only
        by_cases hms : m.fid = fid ∧ m.slot = slot
        · rw [if_pos hms]
          obtain ⟨h1, h2⟩ := hms
          subst h1
          subst h2
          rw [hl]
          simp [slotStep, hgt]
        · rw [if_neg hms]

theorem foldl_merge_liveAt {key : Msg σ → K} :
    ∀ (l : List (Msg σ)) (s : List (Msg σ)),
      SlotUnique s →
      (∀ a, (a ∈ s ∨ a ∈ l) → ∀ b, (b ∈ s ∨ b ∈ l) → a.hash = b.hash → a = b) →
      ∀ (fid : Nat) (slot : σ),
        liveAt (l.foldl (fun t m => (mergeStep key t m).store) s) fid slot =
          (l.filter (fun m => decide (m.fid = fid ∧ m.slot = slot))).foldl
            (slotStep key) (liveAt s fid slot)
  | [], _, _, _, _, _ => rfl
  | m :: l, s, hu, hinj, fid, slot => by
    rw [List.foldl_cons]
    have hfresh : ∀ z ∈ s, z.hash = m.hash → z = m := fun z hz hh =>
      hinj z (Or.inl hz) m (Or.inr (List.mem_cons_self m l)) hh
    have hu' : SlotUnique (mergeStep key s m).store := slotUnique_mergeStep hu m
    have hmem : ∀ a, (a ∈ (mergeStep key s m).store ∨ a ∈ l) → a ∈ s ∨ a ∈ m :: l := by
      intro a ha
      rcases ha with ha | ha
      · rcases mergeStep_store_mem ha with h | h
        · exact Or.inl h
        · exact Or.inr (h ▸ List.mem_cons_self m l)
      · exact Or.inr (List.mem_cons_of_mem m ha)
    have hinj' : ∀ a, (a ∈ (mergeStep key s m).store ∨ a ∈ l) →
        ∀ b, (b ∈ (mergeStep key s m).store ∨ b ∈ l) → a.hash = b.hash → a = b :=
      fun a ha b hb => hinj a (hmem a ha) b (hmem b hb)
    rw [foldl_merge_liveAt l _ hu' hinj' fid slot]
    rw [mergeStep_liveAt hu hfresh fid slot]
    by_cases hms : m.fid = fid ∧ m.slot = slot
    · rw [if_pos hms, List.filter_cons_of_pos (by simpa using hms), List.foldl_cons]
    · rw [if_neg hms, List.filter_cons_of_neg (by simpa using hms)]

theorem mergeAll_liveAt {key : Msg σ → K} (l : List (Msg σ)) (hinj : HashInj l)
    (fid : Nat) (slot : σ) :
    liveAt (mergeAll key l) fid slot =
      (l.filter (fun m => decide (m.fid = fid ∧ m.slot = slot))).foldl
        (slotStep key) none := by
  unfold mergeAll
  rw [foldl_merge_liveAt l [] List.Pairwise.nil]
  · rfl
  · intro a ha b hb hh
    rcases ha with ha | ha
    · cases ha
    · rcases hb with hb | hb
      · cases hb
      · exact hinj a ha b hb hh

theorem slotStep_comm {key : Msg σ → K}
    (hkey : ∀ a b : Msg σ, keyCompare (key a) (key b) = .eq → a.hash = b.hash)
    {x y : Msg σ} (hxy : x.hash = y.hash → x = y) (z : Option (Msg σ)) :
    slotStep key (slotStep key z x) y = slotStep key (slotStep key z y) x := by
  rcases keyCompare_trichotomy (key x) (key y) with hR | hR | hR
  · -- y beats x
    have hyx : keyCompare (key y) (key x) = .gt := keyCompare_gt_iff_lt.mpr hR
    have hxngt : ¬keyCompare (key x) (key y) = .gt := by
      rw [hR]
      exact fun hc => Ordering.noConfusion hc
    cases z with
    | none => simp [slotStep, hyx, hxngt]
    | some e =>
      by_cases hP : keyCompare (key x) (key e) = .gt
      · have hQ : keyCompare (key y) (key e) = .gt := keyCompare_gt_trans hyx hP
        simp [slotStep, hP, hQ, hyx, hxngt]
      · by_cases hQ : keyCompare (key y) (key e) = .gt
        · simp [slotStep, hP, hQ, hxngt]
        · simp [slotStep, hP, hQ]
  · -- equal keys: same hash, hence the same message
    have := hxy (hkey x y hR)
    subst this
    rfl
  · -- x beats y
    have hxy' : keyCompare (key y) (key x) = .lt := keyCompare_gt_iff_lt.mp hR
    have hyngt : ¬keyCompare (key y) (key x) = .gt := by
      rw [hxy']
      exact fun hc => Ordering.noConfusion hc
    cases z with
    | none => simp [slotStep, hR, hyngt]
    | some e =>
      by_cases hQ : keyCompare (key y) (key e) = .gt
      · have hP : keyCompare (key x) (key e) = .gt := keyCompare_gt_trans hR hQ
        simp [slotStep, hP, hQ, hR, hyngt]
      · by_cases hP : keyCompare (key x) (key e) = .gt
        · simp [slotStep, hP, hQ, hR, hyngt]
        · simp [slotStep, hP, hQ]

theorem foldl_perm_of_comm {α β : Type} {f : β → α → β} :
    ∀ {l₁ l₂ : List α}, l₁.Perm l₂ →
      (∀ x ∈ l₁, ∀ y ∈ l₁, ∀ z, f (f z x) y = f (f z y) x) →
      ∀ b, l₁.foldl f b = l₂.foldl f b := by
  intro l₁ l₂ hperm
  induction hperm with
  | nil => intro _ b; rfl
  | cons x p ih =>
    intro hcomm b
    rw [List.foldl_cons, List.foldl_cons]
    exact ih (fun u hu v hv => hcomm u (List.mem_cons_of_mem x hu)
      v (List.mem_cons_of_mem x hv)) (f b x)
  | swap x y l =>
    intro hcomm b
    rw [List.foldl_cons, List.foldl_cons, List.foldl_cons, List.foldl_cons]
    rw [hcomm y (List.mem_cons_self y (x :: l))
      x (List.mem_cons_of_mem y (List.mem_cons_self x l)) b]
  | trans p₁ p₂ ih₁ ih₂ =>
    intro hcomm b
    rw [ih₁ hcomm b]
    refine ih₂ ?_ b
    intro u hu v hv
    exact hcomm u (p₁.mem_iff.mpr hu) v (p₁.mem_iff.mpr hv)

/-- Convergence per slot for one store order: permuting a hash-injective
message collection leaves every slot's final winner unchanged. -/
theorem mergeAll_perm_liveAt {key : Msg σ → K}
    (hkey : ∀ a b : Msg σ, keyCompare (key a) (key b) = .eq → a.hash = b.hash)
    {l₁ l₂ : List (Msg σ)} (hperm : l₁.Perm l₂) (hinj : HashInj l₁)
    (fid : Nat) (slot : σ) :
    liveAt (mergeAll key l₁) fid slot = liveAt (mergeAll key l₂) fid slot := by
  have hinj₂ : HashInj l₂ := by
    intro a ha b hb
    exact hinj a (hperm.mem_iff.mpr ha) b (hperm.mem_iff.mpr hb)
  rw [mergeAll_liveAt l₁ hinj fid slot, mergeAll_liveAt l₂ hinj₂ fid slot]
  refine foldl_perm_of_comm (hperm.filter _) ?_ none
  intro x hx y hy z
  have hxl := (List.mem_filter.mp hx).1
  have hyl := (List.mem_filter.mp hy).1
  exact slotStep_comm hkey (fun hh => hinj x hxl y hyl hh) z

/-! ### Pruning lemmas -/

theorem mem_liveFor {s : List (Msg σ)} {fid : Nat} {z : Msg σ} :
    z ∈ liveFor s fid ↔ z ∈ s ∧ z.fid = fid := by
  unfold liveFor
  rw [List.mem_filter]
  simp

theorem chronMin_eq_none : ∀ {l : List (Msg σ)}, chronMin l = none ↔ l = []
  | [] => by simp [chronMin]
  | a :: l => by
    unfold chronMin
    cases chronMin l with
    | none => simp
    | some b =>
      by_cases h : keyCompare (tsKey b) (tsKey a) = .lt <;> simp [h]

theorem chronMin_mem : ∀ {l : List (Msg σ)} {m : Msg σ}, chronMin l = some m → m ∈ l
  | [], m, h => by simp [chronMin] at h
  | a :: l, m, h => by
    unfold chronMin at h
    cases hc : chronMin l with
    | none =>
      rw [hc] at h
      cases h
      exact List.mem_cons_self a l
    | some b =>
      rw [hc] at h
      dsimp only at h
      by_cases hlt : keyCompare (tsKey b) (tsKey a) = .lt
      · rw [if_pos hlt] at h
        cases h
        exact List.mem_cons_of_mem a (chronMin_mem hc)
      · rw [if_neg hlt] at h
        cases h
        exact List.mem_cons_self a l

theorem chronMin_min : ∀ {l : List (Msg σ)} {m : Msg σ}, chronMin l = some m →
    ∀ y ∈ l, ¬keyCompare (tsKey y) (tsKey m) = .lt
  | [], m, h => by simp [chronMin] at h
  | a :: l, m, h => by
    unfold chronMin at h
    cases hc : chronMin l with
    | none =>
      rw [hc] at h
      cases h
      have hl : l = [] := chronMin_eq_none.mp hc
      subst hl
      intro y hy
      rcases List.mem_cons.mp hy with rfl | hy
      · rw [keyCompare_self]
        exact fun hcon => Ordering.noConfusion hcon
      · cases hy
    | some b =>
      rw [hc] at h
      dsimp only at h
      by_cases hlt : keyCompare (tsKey b) (tsKey a) = .lt
      · rw [if_pos hlt] at h
        cases h
        intro y hy
        rcases List.mem_cons.mp hy with rfl | hy
        · intro hab
          have := keyCompare_lt_trans hab hlt
          rw [keyCompare_self] at this
          exact Ordering.noConfusion this
        · exact chronMin_min hc y hy
      · rw [if_neg hlt] at h
        cases h
        intro y hy
        rcases List.mem_cons.mp hy with rfl | hy
        · rw [keyCompare_self]
          exact fun hcon => Ordering.noConfusion hcon
        · intro hya
          rcases keyCompare_trichotomy (tsKey b) (tsKey a) with hba | hba | hba
          · exact hlt hba
          · rw [keyCompare_eq_iff] at hba
            rw [← hba] at hya
            exact chronMin_min hc y hy hya
          · rw [keyCompare_gt_iff_lt] at hba
            exact chronMin_min hc y hy (keyCompare_lt_trans hya hba)

theorem filter_erase_comm {α : Type} [DecidableEq α] (p : α → Bool) (a : α)
    (hp : p a = true) :
    ∀ l : List α, (l.erase a).filter p = (l.filter p).erase a
  | [] => rfl
  | b :: l => by
    by_cases hba : b = a
    · subst hba
      rw [List.erase_cons_head, List.filter_cons_of_pos hp, List.erase_cons_head]
    · rw [List.erase_cons_tail (by simp [hba])]
      by_cases hpb : p b = true
      · rw [List.filter_cons_of_pos hpb, List.filter_cons_of_pos hpb,
          List.erase_cons_tail (by simp [hba]), filter_erase_comm p a hp l]
      · rw [List.filter_cons_of_neg (by simp [hpb]), List.filter_cons_of_neg (by simp [hpb]),
          filter_erase_comm p a hp l]

theorem tsKey_ts_le {a b : Msg σ} (h : ¬keyCompare (tsKey a) (tsKey b) = .lt) :
    b.ts ≤ a.ts := by
  by_contra hc
  exact h (keyCompare_lt_iff.mpr (Or.inl (by simpa [tsKey] using Nat.lt_of_not_le hc)))

/-- The chronological order pruned lists are sorted in. -/
def ChronLe (a b : Msg σ) : Prop := ¬keyCompare (tsKey a) (tsKey b) = .gt

theorem pruneGo_spec :
    ∀ (fuel : Nat) (s : List (Msg σ)) (fid sl tl now : Nat),
      (liveFor s fid).length ≤ fuel →
      s.Perm ((pruneGo fuel s fid sl tl now).2 ++ (pruneGo fuel s fid sl tl now).1) ∧
      (liveFor (pruneGo fuel s fid sl tl now).1 fid).length ≤ sl ∧
      (∀ y ∈ liveFor (pruneGo fuel s fid sl tl now).1 fid, ¬tooOld tl now y = true) ∧
      (∀ p ∈ (pruneGo fuel s fid sl tl now).2, p.fid = fid) ∧
      List.Pairwise ChronLe (pruneGo fuel s fid sl tl now).2 ∧
      (∀ p ∈ (pruneGo fuel s fid sl tl now).2,
        ∀ y ∈ liveFor (pruneGo fuel s fid sl tl now).1 fid, ChronLe p y) ∧
      (∀ (i : Nat) (p : Msg σ), (pruneGo fuel s fid sl tl now).2.get? i = some p →
        sl < (liveFor s fid).length - i ∨ tooOld tl now p = true)
  | 0, s, fid, sl, tl, now => by
    intro hfuel
    have hnil : liveFor s fid = [] :=
      List.eq_nil_of_length_eq_zero (Nat.le_zero.mp hfuel)
    refine ⟨by simp [pruneGo], ?_, ?_, ?_, ?_, ?_, ?_⟩ <;> simp [pruneGo, hnil]
  | Nat.succ fuel, s, fid, sl, tl, now => by
    intro hfuel
    unfold pruneGo
    cases hc : chronMin (liveFor s fid) with
    | none =>
      dsimp only
      have hnil : liveFor s fid = [] := chronMin_eq_none.mp hc
      refine ⟨by simp, ?_, ?_, ?_, ?_, ?_, ?_⟩ <;> simp [hnil]
    | some m =>
      dsimp only
      have hmlive : m ∈ liveFor s fid := chronMin_mem hc
      have hmfid : m.fid = fid := (mem_liveFor.mp hmlive).2
      have hms : m ∈ s := (mem_liveFor.mp hmlive).1
      have hmin := chronMin_min hc
      by_cases hcond : (sl < (liveFor s fid).length || tooOld tl now m) = true
      · rw [if_pos hcond]
        have herase : liveFor (s.erase m) fid = (liveFor s fid).erase m :=
          filter_erase_comm _ m (by simp [hmfid]) s
        have herlen : (liveFor (s.erase m) fid).length = (liveFor s fid).length - 1 := by
          rw [herase, List.length_erase_of_mem hmlive]
        have hlen : (liveFor (s.erase m) fid).length ≤ fuel := by
          rw [herlen]
          omega
        obtain ⟨ha, hb, hcc, hd, he, hf, hg⟩ :=
          pruneGo_spec fuel (s.erase m) fid sl tl now hlen
        have hsubS : ∀ z ∈ s.erase m, z ∈ s := fun z hz => List.mem_of_mem_erase hz
        have hsubPruned : ∀ p ∈ (pruneGo fuel (s.erase m) fid sl tl now).2,
            p ∈ liveFor s fid := by
          intro p hp
          have hpm : p ∈ s.erase m := ha.mem_iff.mpr (List.mem_append_left _ hp)
          exact mem_liveFor.mpr ⟨hsubS p hpm, hd p hp⟩
        have hsubLive : ∀ y ∈ liveFor (pruneGo fuel (s.erase m) fid sl tl now).1 fid,
            y ∈ liveFor s fid := by
          intro y hy
          obtain ⟨hy1, hy2⟩ := mem_liveFor.mp hy
          have := (pruneGo_sublist fuel (s.erase m) fid sl tl now).subset hy1
          exact mem_liveFor.mpr ⟨hsubS y this, hy2⟩
        refine ⟨?_, hb, hcc, ?_, ?_, ?_, ?_⟩
        · exact (List.perm_cons_erase hms).trans (ha.cons m)
        · intro p hp
          rcases List.mem_cons.mp hp with rfl | hp
          · exact hmfid
          · exact hd p hp
        · refine List.Pairwise.cons ?_ he
          intro q hq
          have hq' := hsubPruned q hq
          unfold ChronLe
          rw [keyCompare_gt_iff_lt]
          exact hmin q hq'
        · intro p hp y hy
          rcases List.mem_cons.mp hp with rfl | hp
          · unfold ChronLe
            rw [keyCompare_gt_iff_lt]
            exact hmin y (hsubLive y hy)
          · exact hf p hp y hy
        · intro i p hp
          cases i with
          | zero =>
            have hmp : some m = some p := hp
            injection hmp with hmp
            subst hmp
            rcases (Bool.or_eq_true _ _).mp hcond with hx | hx
            · left
              have := of_decide_eq_true hx
              omega
            · right
              exact hx
          | succ j =>
            have hp' : (pruneGo fuel (s.erase m) fid sl tl now).2.get? j = some p := hp
            rcases hg j p hp' with hx | hx
            · left
              rw [herlen] at hx
              omega
            · right
              exact hx
      · rw [if_neg hcond]
        have hcond' : ¬sl < (liveFor s fid).length ∧ ¬tooOld tl now m = true := by
          constructor
          · intro hx
            exact hcond (by simp [hx])
          · intro hx
            exact hcond (by simp [hx])
        have hnotold : ∀ y ∈ liveFor s fid, ¬tooOld tl now y = true := by
          intro y hy hold
          have hyts : m.ts ≤ y.ts := tsKey_ts_le (hmin y hy)
          have h1 : y.ts + tl < now := by simpa [tooOld] using hold
          exact hcond'.2 (by simp [tooOld]; omega)
        refine ⟨by simp, Nat.le_of_not_lt hcond'.1, hnotold, by simp, List.Pairwise.nil,
          by simp, ?_⟩
        intro i p hp
        simp at hp

/-- The call `pruneMessages` has enough fuel: all of `pruneGo_spec` applies to it. -/
theorem pruneMessages_spec (s : List (Msg σ)) (fid sl tl now : Nat) :
    s.Perm ((pruneMessages s fid sl tl now).2 ++ (pruneMessages s fid sl tl now).1) ∧
    (liveFor (pruneMessages s fid sl tl now).1 fid).length ≤ sl ∧
    (∀ y ∈ liveFor (pruneMessages s fid sl tl now).1 fid, ¬tooOld tl now y = true) ∧
    (∀ p ∈ (pruneMessages s fid sl tl now).2, p.fid = fid) ∧
    List.Pairwise ChronLe (pruneMessages s fid sl tl now).2 ∧
    (∀ p ∈ (pruneMessages s fid sl tl now).2,
      ∀ y ∈ liveFor (pruneMessages s fid sl tl now).1 fid, ChronLe p y) ∧
    (∀ (i : Nat) (p : Msg σ), (pruneMessages s fid sl tl now).2.get? i = some p →
      sl < (liveFor s fid).length - i ∨ tooOld tl now p = true) :=
  pruneGo_spec _ s fid sl tl now (Nat.le_refl _)

/-- When both bounds already hold, pruning is a no-op. -/
theorem pruneMessages_noop (s : List (Msg σ)) (fid sl tl now : Nat)
    (hsize : (liveFor s fid).length ≤ sl)
    (htime : ∀ y ∈ liveFor s fid, ¬tooOld tl now y = true) :
    pruneMessages s fid sl tl now = (s, []) := by
  unfold pruneMessages
  cases hlen : (liveFor s fid).length with
  | zero => rfl
  | succ n =>
    unfold pruneGo
    cases hc : chronMin (liveFor s fid) with
    | none => rfl
    | some m =>
      dsimp only
      have hmlive := chronMin_mem hc
      rw [if_neg]
      simp only [Bool.or_eq_true, not_or]
      constructor
      · simp only [decide_eq_true_eq, not_lt]
        omega
      · exact htime m hmlive

/-! ### Computation lemmas for `mergeStep` -/

theorem mergeStep_of_dup {key : Msg σ → K} {s : List (Msg σ)} {m : Msg σ}
    (hd : hashDup s m = true) :
    mergeStep key s m = ⟨s, .duplicate⟩ := by
  simp [mergeStep, hd]

theorem mergeStep_of_none {key : Msg σ → K} {s : List (Msg σ)} {m : Msg σ}
    (hd : hashDup s m = false) (hl : liveAt s m.fid m.slot = none) :
    mergeStep key s m = ⟨insertMsg s m, .merged []⟩ := by
  simp [mergeStep, hd, hl]

theorem mergeStep_of_win {key : Msg σ → K} {s : List (Msg σ)} {m e : Msg σ}
    (hd : hashDup s m = false) (hl : liveAt s m.fid m.slot = some e)
    (hgt : keyCompare (key m) (key e) = .gt) :
    mergeStep key s m = ⟨insertMsg s m, .merged [e]⟩ := by
  simp [mergeStep, hd, hl, hgt]

theorem mergeStep_of_lose {key : Msg σ → K} {s : List (Msg σ)} {m e : Msg σ}
    (hd : hashDup s m = false) (hl : liveAt s m.fid m.slot = some e)
    (hngt : ¬keyCompare (key m) (key e) = .gt) :
    mergeStep key s m = ⟨s, .conflict e.kind⟩ := by
  simp [mergeStep, hd, hl, hngt]

theorem mergeStep_merged {key : Msg σ → K} {s : List (Msg σ)} {m : Msg σ}
    {sup : List (Msg σ)} (h : (mergeStep key s m).out = .merged sup) :
    hashDup s m = false ∧ (mergeStep key s m).store = insertMsg s m ∧
      ((sup = [] ∧ liveAt s m.fid m.slot = none) ∨
        ∃ e, sup = [e] ∧ liveAt s m.fid m.slot = some e ∧
          keyCompare (key m) (key e) = .gt) := by
  by_cases hd : hashDup s m = true
  · rw [mergeStep_of_dup hd] at h
    simp at h
  · have hd' : hashDup s m = false := Bool.not_eq_true _ ▸ eq_false_of_ne_true hd
    cases hl : liveAt s m.fid m.slot with
    | none =>
      rw [mergeStep_of_none hd' hl] at h
      have hsup : sup = [] := by simpa using h.symm
      subst hsup
      exact ⟨hd', by rw [mergeStep_of_none hd' hl], Or.inl ⟨rfl, rfl⟩⟩
    | some e =>
      by_cases hgt : keyCompare (key m) (key e) = .gt
      · rw [mergeStep_of_win hd' hl hgt] at h
        have hsup : sup = [e] := by simpa using h.symm
        subst hsup
        exact ⟨hd', by rw [mergeStep_of_win hd' hl hgt], Or.inr ⟨e, rfl, rfl, hgt⟩⟩
      · rw [mergeStep_of_lose hd' hl hgt] at h
        simp at h

theorem mergeStep_not_merged {key : Msg σ → K} {s : List (Msg σ)} {m : Msg σ}
    (h : ∀ sup, ¬(mergeStep key s m).out = .merged sup) :
    (mergeStep key s m).store = s := by
  by_cases hd : hashDup s m = true
  · rw [mergeStep_of_dup hd]
  · have hd' : hashDup s m = false := Bool.not_eq_true _ ▸ eq_false_of_ne_true hd
    cases hl : liveAt s m.fid m.slot with
    | none => exact absurd (by rw [mergeStep_of_none hd' hl]) (h [])
    | some e =>
      by_cases hgt : keyCompare (key m) (key e) = .gt
      · exact absurd (by rw [mergeStep_of_win hd' hl hgt]) (h [e])
      · rw [mergeStep_of_lose hd' hl hgt]

/-! ### Hash distinctness of live records -/

/-- Live records carry pairwise distinct hashes (a consequence of the
duplicate check plus deletion-only mutation). -/
def HashDistinct (s : List (Msg σ)) : Prop :=
  s.Pairwise (fun a b => a.hash ≠ b.hash)

theorem hashDistinct_eq_of_mem {s : List (Msg σ)} (hh : HashDistinct s)
    {a b : Msg σ} (ha : a ∈ s) (hb : b ∈ s) (h : a.hash = b.hash) : a = b := by
  by_contra hne
  have hsym : Symmetric (fun x y : Msg σ => x.hash ≠ y.hash) := by
    intro x y hxy hyx
    exact hxy hyx.symm
  exact (hh.forall hsym ha hb hne) h

theorem hashDistinct_insertMsg {s : List (Msg σ)} (hh : HashDistinct s)
    {m : Msg σ} (hd : hashDup s m = false) : HashDistinct (insertMsg s m) := by
  unfold HashDistinct insertMsg
  refine List.Pairwise.cons ?_ (hh.filter _)
  intro z hz
  have hzs := (List.mem_filter.mp hz).1
  intro hc
  have : hashDup s m = true := by
    unfold hashDup
    rw [List.any_eq_true]
    exact ⟨z, hzs, by simp [hc]⟩
  rw [this] at hd
  cases hd

theorem hashDistinct_mergeStep {key : Msg σ → K} {s : List (Msg σ)}
    (hh : HashDistinct s) (m : Msg σ) : HashDistinct (mergeStep key s m).store := by
  by_cases hd : hashDup s m = true
  · rw [mergeStep_of_dup hd]
    exact hh
  · have hd' : hashDup s m = false := Bool.not_eq_true _ ▸ eq_false_of_ne_true hd
    cases hl : liveAt s m.fid m.slot with
    | none =>
      rw [mergeStep_of_none hd' hl]
      exact hashDistinct_insertMsg hh hd'
    | some e =>
      by_cases hgt : keyCompare (key m) (key e) = .gt
      · rw [mergeStep_of_win hd' hl hgt]
        exact hashDistinct_insertMsg hh hd'
      · rw [mergeStep_of_lose hd' hl hgt]
        exact hh

theorem slotUnique_nodup {s : List (Msg σ)} (hu : SlotUnique s) : s.Nodup := by
  refine hu.imp ?_
  intro a b hab hc
  exact hab (by rw [hc]; exact ⟨rfl, rfl⟩)

/-! ### Reaction-store index invariant -/

theorem mem_entriesOf {d : Msg RSlot} {z : REntry} :
    z ∈ entriesOf d ↔ d.kind = Kind.add ∧ z = entryOf d := by
  unfold entriesOf
  cases hk : d.kind <;> simp [hk]

theorem mem_dropEntries {idx : List REntry} {del : List (Msg RSlot)} {e : REntry} :
    e ∈ dropEntries idx del ↔ e ∈ idx ∧ ∀ d ∈ del, ¬e ∈ entriesOf d := by
  unfold dropEntries
  rw [List.mem_filter]
  simp

theorem entryOf_parts {a b : Msg RSlot} (h : entryOf a = entryOf b) :
    a.fid = b.fid ∧ a.slot = b.slot ∧ a.ts = b.ts ∧ a.hash = b.hash := by
  unfold entryOf at h
  rw [Prod.ext_iff, Prod.ext_iff, Prod.ext_iff, Prod.ext_iff] at h
  obtain ⟨⟨h1, h2, h3⟩, h4, h5⟩ := h
  refine ⟨h3, ?_, h4, h5⟩
  rw [Prod.ext_iff]
  exact ⟨h2, h1⟩

/-- The by-target index lists exactly the entries of the live Adds. -/
def IndexIff (msgs : List (Msg RSlot)) (idx : List REntry) : Prop :=
  ∀ e, e ∈ idx ↔ ∃ w, w ∈ msgs ∧ w.kind = Kind.add ∧ entryOf w = e

/-! ### Computation lemmas for `rMerge` -/

theorem rMerge_of_dup {st : RStore} {m : Msg RSlot}
    (hd : hashDup st.msgs m = true) : rMerge st m = (st, .duplicate) := by
  simp [rMerge, mergeStep_of_dup hd]

theorem rMerge_of_none {st : RStore} {m : Msg RSlot}
    (hd : hashDup st.msgs m = false) (hl : liveAt st.msgs m.fid m.slot = none) :
    rMerge st m =
      (⟨insertMsg st.msgs m, entriesOf m ++ dropEntries st.index []⟩, .merged []) := by
  simp [rMerge, mergeStep_of_none hd hl]

theorem rMerge_of_win {st : RStore} {m e : Msg RSlot}
    (hd : hashDup st.msgs m = false) (hl : liveAt st.msgs m.fid m.slot = some e)
    (hgt : keyCompare (rKey m) (rKey e) = .gt) :
    rMerge st m =
      (⟨insertMsg st.msgs m, entriesOf m ++ dropEntries st.index [e]⟩, .merged [e]) := by
  simp [rMerge, mergeStep_of_win hd hl hgt]

theorem rMerge_of_lose {st : RStore} {m e : Msg RSlot}
    (hd : hashDup st.msgs m = false) (hl : liveAt st.msgs m.fid m.slot = some e)
    (hngt : ¬keyCompare (rKey m) (rKey e) = .gt) :
    rMerge st m = (st, .conflict e.kind) := by
  simp [rMerge, mergeStep_of_lose hd hl hngt]

theorem indexIff_insert {s : List (Msg RSlot)} {idx : List REntry}
    (hidx : IndexIff s idx) {m : Msg RSlot} {sup : List (Msg RSlot)}
    (hsup : ∀ w ∈ s, w.fid = m.fid ∧ w.slot = m.slot → w ∈ sup)
    (hsup' : ∀ d ∈ sup, d.fid = m.fid ∧ d.slot = m.slot) :
    IndexIff (insertMsg s m) (entriesOf m ++ dropEntries idx sup) := by
  intro e'
  constructor
  · intro h
    rcases List.mem_append.mp h with h | h
    · obtain ⟨hk, he⟩ := mem_entriesOf.mp h
      exact ⟨m, List.mem_cons_self m _, hk, he.symm⟩
    · obtain ⟨hin, hkeep⟩ := mem_dropEntries.mp h
      obtain ⟨w, hws, hwk, hwe⟩ := (hidx e').mp hin
      refine ⟨w, ?_, hwk, hwe⟩
      have hwslot : ¬(w.fid = m.fid ∧ w.slot = m.slot) := by
        intro hc
        exact hkeep w (hsup w hws hc) (mem_entriesOf.mpr ⟨hwk, hwe.symm⟩)
      refine List.mem_cons_of_mem m (List.mem_filter.mpr ⟨hws, ?_⟩)
      simp only [Bool.not_eq_true', decide_eq_false_iff_not]
      exact hwslot
  · rintro ⟨w, hw, hwk, hwe⟩
    rcases List.mem_cons.mp hw with rfl | hw
    · exact List.mem_append_left _ (mem_entriesOf.mpr ⟨hwk, hwe.symm⟩)
    · obtain ⟨hws, hwsl⟩ := List.mem_filter.mp hw
      have hwslot : ¬(w.fid = m.fid ∧ w.slot = m.slot) := by
        simp only [Bool.not_eq_true', decide_eq_false_iff_not] at hwsl
        exact hwsl
      refine List.mem_append_right _ (mem_dropEntries.mpr ⟨(hidx e').mpr ⟨w, hws, hwk, hwe⟩, ?_⟩)
      intro d hd hde
      obtain ⟨hdk, hde2⟩ := mem_entriesOf.mp hde
      have := entryOf_parts (hde2.symm.trans hwe.symm : entryOf d = entryOf w)
      obtain ⟨hdf, hdsl⟩ := hsup' d hd
      exact hwslot ⟨this.1 ▸ hdf, this.2.1 ▸ hdsl⟩

theorem indexIff_delete {s s' : List (Msg RSlot)} {idx : List REntry}
    {del : List (Msg RSlot)} (hu : SlotUnique s) (hidx : IndexIff s idx)
    (hperm : s.Perm (del ++ s')) :
    IndexIff s' (dropEntries idx del) := by
  have hnodup : (del ++ s').Nodup := hperm.nodup (slotUnique_nodup hu)
  have hdisj := (List.nodup_append.mp hnodup).2.2
  intro e'
  constructor
  · intro h
    obtain ⟨hin, hkeep⟩ := mem_dropEntries.mp h
    obtain ⟨w, hws, hwk, hwe⟩ := (hidx e').mp hin
    refine ⟨w, ?_, hwk, hwe⟩
    rcases List.mem_append.mp (hperm.mem_iff.mp hws) with hwd | hws'
    · exact absurd (mem_entriesOf.mpr ⟨hwk, hwe.symm⟩) (hkeep w hwd)
    · exact hws'
  · rintro ⟨w, hw, hwk, hwe⟩
    have hws : w ∈ s := hperm.mem_iff.mpr (List.mem_append_right _ hw)
    refine mem_dropEntries.mpr ⟨(hidx e').mpr ⟨w, hws, hwk, hwe⟩, ?_⟩
    intro d hd hde
    obtain ⟨hdk, hde2⟩ := mem_entriesOf.mp hde
    have hparts := entryOf_parts (hde2.symm.trans hwe.symm : entryOf d = entryOf w)
    have hds : d ∈ s := hperm.mem_iff.mpr (List.mem_append_left _ hd)
    have hdw : d = w := slotUnique_eq_of_mem hu hds hws hparts.1 hparts.2.1
    subst hdw
    exact hdisj hd hw

/-- Full invariant of the indexed Reaction store. -/
def INVr (st : RStore) : Prop :=
  SlotUnique st.msgs ∧ HashDistinct st.msgs ∧ IndexIff st.msgs st.index

theorem reachableR_inv {st : RStore} (h : ReachableR st) : INVr st := by
  induction h with
  | empty =>
    refine ⟨List.Pairwise.nil, List.Pairwise.nil, ?_⟩
    intro e
    simp
  | merge st m _ ih =>
    obtain ⟨hu, hh, hidx⟩ := ih
    by_cases hd : hashDup st.msgs m = true
    · rw [rMerge_of_dup hd]
      exact ⟨hu, hh, hidx⟩
    · have hd' : hashDup st.msgs m = false := Bool.not_eq_true _ ▸ eq_false_of_ne_true hd
      cases hl : liveAt st.msgs m.fid m.slot with
      | none =>
        rw [rMerge_of_none hd' hl]
        refine ⟨slotUnique_insertMsg hu m, hashDistinct_insertMsg hh hd', ?_⟩
        refine indexIff_insert hidx ?_ ?_
        · intro w hws hc
          have := List.find?_eq_none.mp hl w hws
          simp only [decide_eq_true_eq] at this
          exact absurd hc this
        · intro d hd'
          cases hd'
      | some e =>
        by_cases hgt : keyCompare (rKey m) (rKey e) = .gt
        · rw [rMerge_of_win hd' hl hgt]
          obtain ⟨hes, hef, hesl⟩ := liveAt_some hl
          refine ⟨slotUnique_insertMsg hu m, hashDistinct_insertMsg hh hd', ?_⟩
          refine indexIff_insert hidx ?_ ?_
          · intro w hws hc
            have : w = e := slotUnique_eq_of_mem hu hws hes (hc.1.trans hef.symm)
              (hc.2.trans hesl.symm)
            subst this
            exact List.mem_singleton.mpr rfl
          · intro d hd'
            rw [List.mem_singleton.mp hd']
            exact ⟨hef, hesl⟩
        · rw [rMerge_of_lose hd' hl hgt]
          exact ⟨hu, hh, hidx⟩
  | prune st fid sl tl now _ ih =>
    obtain ⟨hu, hh, hidx⟩ := ih
    unfold rPrune
    dsimp only
    have hspec := pruneMessages_spec st.msgs fid sl tl now
    refine ⟨slotUnique_pruneMessages hu fid sl tl now, ?_, ?_⟩
    · exact hh.sublist (pruneGo_sublist _ st.msgs fid sl tl now)
    · exact indexIff_delete hu hidx hspec.1
  | revoke st fid signer _ ih =>
    obtain ⟨hu, hh, hidx⟩ := ih
    unfold rRevoke
    dsimp only
    refine ⟨slotUnique_revoke hu fid signer, hh.sublist (List.filter_sublist _), ?_⟩
    refine indexIff_delete hu hidx ?_
    unfold revokeMessagesBySigner
    dsimp only
    exact (List.filter_append_perm _ st.msgs).symm

/-! ### Small helpers for the claim theorems -/

theorem bytesCompare_gt_ne {a b : List Nat} (h : bytesCompare a b = .gt) : a ≠ b := by
  intro hc
  rw [hc, bytesCompare_self] at h
  cases h

theorem keyCompare_ne_gt_of_lt {a b : K} (h : keyCompare a b = .lt) :
    ¬keyCompare a b = .gt := fun hc => Ordering.noConfusion (h.symm.trans hc)

theorem find?_eq_some_of_unique {α : Type} {p : α → Bool} :
    ∀ {l : List α} {m : α}, m ∈ l → p m = true → (∀ z ∈ l, p z = true → z = m) →
      l.find? p = some m
  | a :: l, m, hm, hpm, huniq => by
    by_cases hpa : p a = true
    · rw [List.find?_cons_of_pos _ hpa]
      rw [huniq a (List.mem_cons_self a l) hpa]
    · rw [List.find?_cons_of_neg _ (by simp [hpa])]
      rcases List.mem_cons.mp hm with rfl | hm'
      · exact absurd hpm hpa
      · exact find?_eq_some_of_unique hm' hpm
          (fun z hz hpz => huniq z (List.mem_cons_of_mem a hz) hpz)

/-! ## Claim theorems -/

/-- C1 (counterexample): the claim "higher timestamp wins outright regardless
of kind, for every store" fails on the Cast store.  Concretely: after a
CastRemove with timestamp 10 is merged, a conflicting CastAdd with the
strictly later timestamp 11 is rejected with a conflict against the
CastRemove, and the CastRemove stays live — exactly what the cast acceptance
tests demand. -/
theorem claim_C1_counterexample :
    (mergeStep cKey ([] : List (Msg (List Nat))) (Msg.mk Kind.remove 1 [5] 10 [1] 0)) =
      ⟨[Msg.mk Kind.remove 1 [5] 10 [1] 0], Outcome.merged []⟩ ∧
    (Msg.mk Kind.remove 1 [5] 10 [1] 0).ts < (Msg.mk Kind.add 1 [5] 11 [2] 0).ts ∧
    (Msg.mk Kind.remove 1 [5] 10 [1] 0).slot = (Msg.mk Kind.add 1 [5] 11 [2] 0).slot ∧
    (mergeStep cKey [Msg.mk Kind.remove 1 [5] 10 [1] 0]
        (Msg.mk Kind.add 1 [5] 11 [2] 0)).out = Outcome.conflict Kind.remove ∧
    (mergeStep cKey [Msg.mk Kind.remove 1 [5] 10 [1] 0]
        (Msg.mk Kind.add 1 [5] 11 [2] 0)).store = [Msg.mk Kind.remove 1 [5] 10 [1] 0] := by
  decide

/-- C1 (amended): in the Reaction store, between conflicting messages with
different timestamps the higher timestamp wins outright, regardless of kind
(an Add with a strictly later timestamp supersedes an earlier Remove).  In
the Cast store this holds between messages of the same kind; between
different kinds a CastRemove defeats a CastAdd regardless of timestamps. -/
theorem claim_C1 {σ : Type} [DecidableEq σ] (s : List (Msg σ)) (m e : Msg σ)
    (hd : hashDup s m = false) (hl : liveAt s m.fid m.slot = some e) :
    (e.ts < m.ts →
      mergeStep rKey s m = ⟨insertMsg s m, Outcome.merged [e]⟩ ∧
        liveAt (insertMsg s m) m.fid m.slot = some m) ∧
    (m.ts < e.ts → mergeStep rKey s m = ⟨s, Outcome.conflict e.kind⟩) ∧
    (m.kind = e.kind → e.ts < m.ts →
      mergeStep cKey s m = ⟨insertMsg s m, Outcome.merged [e]⟩) ∧
    (m.kind = e.kind → m.ts < e.ts →
      mergeStep cKey s m = ⟨s, Outcome.conflict e.kind⟩) ∧
    (m.kind = Kind.remove → e.kind = Kind.add →
      mergeStep cKey s m = ⟨insertMsg s m, Outcome.merged [e]⟩) ∧
    (m.kind = Kind.add → e.kind = Kind.remove →
      mergeStep cKey s m = ⟨s, Outcome.conflict e.kind⟩) := by
  refine ⟨?_, ?_, ?_, ?_, ?_, ?_⟩
  · intro hts
    have hgt : keyCompare (rKey m) (rKey e) = .gt :=
      keyCompare_gt_iff_lt.mpr (keyCompare_lt_iff.mpr (Or.inl hts))
    exact ⟨mergeStep_of_win hd hl hgt, liveAt_insertMsg_self s m⟩
  · intro hts
    exact mergeStep_of_lose hd hl
      (keyCompare_ne_gt_of_lt (keyCompare_lt_iff.mpr (Or.inl hts)))
  · intro hk hts
    have hgt : keyCompare (cKey m) (cKey e) = .gt :=
      keyCompare_gt_iff_lt.mpr
        (keyCompare_lt_iff.mpr (Or.inr ⟨congrArg kindRank hk.symm, Or.inl hts⟩))
    exact mergeStep_of_win hd hl hgt
  · intro hk hts
    exact mergeStep_of_lose hd hl
      (keyCompare_ne_gt_of_lt
        (keyCompare_lt_iff.mpr (Or.inr ⟨congrArg kindRank hk, Or.inl hts⟩)))
  · intro hmk hek
    have hgt : keyCompare (cKey m) (cKey e) = .gt :=
      keyCompare_gt_iff_lt.mpr
        (keyCompare_lt_iff.mpr (Or.inl (by
          show kindRank e.kind < kindRank m.kind
          rw [hmk, hek]
          decide)))
    exact mergeStep_of_win hd hl hgt
  · intro hmk hek
    exact mergeStep_of_lose hd hl
      (keyCompare_ne_gt_of_lt
        (keyCompare_lt_iff.mpr (Or.inl (by
          show kindRank m.kind < kindRank e.kind
          rw [hmk, hek]
          decide))))

/-- C1 (witness): the Reaction-store half at a concrete input — an Add with
timestamp 11 supersedes a live Remove with timestamp 10 for the same slot. -/
theorem claim_C1_witness :
    mergeStep rKey [Msg.mk Kind.remove 1 (0 : Nat) 10 [1] 0]
        (Msg.mk Kind.add 1 (0 : Nat) 11 [2] 0) =
      ⟨insertMsg [Msg.mk Kind.remove 1 (0 : Nat) 10 [1] 0]
          (Msg.mk Kind.add 1 (0 : Nat) 11 [2] 0),
        Outcome.merged [Msg.mk Kind.remove 1 (0 : Nat) 10 [1] 0]⟩ ∧
    liveAt (insertMsg [Msg.mk Kind.remove 1 (0 : Nat) 10 [1] 0]
        (Msg.mk Kind.add 1 (0 : Nat) 11 [2] 0)) 1 0 =
      some (Msg.mk Kind.add 1 (0 : Nat) 11 [2] 0) :=
  (claim_C1 [Msg.mk Kind.remove 1 (0 : Nat) 10 [1] 0]
    (Msg.mk Kind.add 1 (0 : Nat) 11 [2] 0)
    (Msg.mk Kind.remove 1 (0 : Nat) 10 [1] 0)
    (by decide) (by decide)).1 (by decide)

/-- C2: at equal timestamps an Add and a Remove for the same slot resolve to
the Remove, independent of the hash bytes and of arrival order, in both the
Reaction store and the Cast store.  The two messages are distinct entities,
so by the data model their hashes differ. -/
theorem claim_C2 {σ : Type} [DecidableEq σ] (a r : Msg σ)
    (hak : a.kind = Kind.add) (hrk : r.kind = Kind.remove)
    (hfid : a.fid = r.fid) (hslot : a.slot = r.slot)
    (hts : a.ts = r.ts) (hhash : a.hash ≠ r.hash) :
    (mergeStep rKey (mergeStep rKey [] a).store r).out = Outcome.merged [a] ∧
    liveAt (mergeStep rKey (mergeStep rKey [] a).store r).store r.fid r.slot = some r ∧
    (mergeStep rKey (mergeStep rKey [] r).store a).out = Outcome.conflict Kind.remove ∧
    liveAt (mergeStep rKey (mergeStep rKey [] r).store a).store r.fid r.slot = some r ∧
    (mergeStep cKey (mergeStep cKey [] a).store r).out = Outcome.merged [a] ∧
    liveAt (mergeStep cKey (mergeStep cKey [] a).store r).store r.fid r.slot = some r ∧
    (mergeStep cKey (mergeStep cKey [] r).store a).out = Outcome.conflict Kind.remove ∧
    liveAt (mergeStep cKey (mergeStep cKey [] r).store a).store r.fid r.slot = some r := by
  have hra : keyCompare (rKey a) (rKey r) = .lt :=
    keyCompare_lt_iff.mpr (Or.inr ⟨hts, Or.inl (by
      show kindRank a.kind < kindRank r.kind
      rw [hak, hrk]
      decide)⟩)
  have hca : keyCompare (cKey a) (cKey r) = .lt :=
    keyCompare_lt_iff.mpr (Or.inl (by
      show kindRank a.kind < kindRank r.kind
      rw [hak, hrk]
      decide))
  have hdar : hashDup [a] r = false := by
    simp [hashDup, hhash]
  have hdra : hashDup [r] a = false := by
    have hrh : r.hash ≠ a.hash := fun hc => hhash hc.symm
    simp [hashDup, hrh]
  have hlar : liveAt [a] r.fid r.slot = some a := by
    unfold liveAt
    rw [List.find?_cons_of_pos _ (by simp [hfid, hslot])]
  have hlra : liveAt [r] a.fid a.slot = some r := by
    unfold liveAt
    rw [List.find?_cons_of_pos _ (by simp [hfid.symm, hslot.symm])]
  have hlrr : liveAt [r] r.fid r.slot = some r := by
    unfold liveAt
    rw [List.find?_cons_of_pos _ (by simp)]
  have hstepA : ∀ key : Msg σ → K, mergeStep key ([] : List (Msg σ)) a = ⟨[a], .merged []⟩ :=
    fun key => mergeStep_of_none rfl rfl
  have hstepR : ∀ key : Msg σ → K, mergeStep key ([] : List (Msg σ)) r = ⟨[r], .merged []⟩ :=
    fun key => mergeStep_of_none rfl rfl
  have hrwin : mergeStep rKey [a] r = ⟨insertMsg [a] r, .merged [a]⟩ := by
    have hrr : liveAt [a] r.fid r.slot = some a := hlar
    exact mergeStep_of_win hdar hrr (keyCompare_gt_iff_lt.mpr hra)
  have hcwin : mergeStep cKey [a] r = ⟨insertMsg [a] r, .merged [a]⟩ :=
    mergeStep_of_win hdar hlar (keyCompare_gt_iff_lt.mpr hca)
  have hrlose : mergeStep rKey [r] a = ⟨[r], .conflict r.kind⟩ :=
    mergeStep_of_lose hdra hlra (keyCompare_ne_gt_of_lt hra)
  have hclose : mergeStep cKey [r] a = ⟨[r], .conflict r.kind⟩ :=
    mergeStep_of_lose hdra hlra (keyCompare_ne_gt_of_lt hca)
  rw [hstepA rKey, hstepA cKey, hstepR rKey, hstepR cKey]
  dsimp only
  rw [hrwin, hcwin, hrlose, hclose]
  dsimp only
  refine ⟨rfl, ?_, by rw [hrk], hlrr, rfl, ?_, by rw [hrk], hlrr⟩
  · exact liveAt_insertMsg_self [a] r
  · exact liveAt_insertMsg_self [a] r

/-- C2 (witness): concrete equal-timestamp Add/Remove pair. -/
theorem claim_C2_witness :
    (mergeStep rKey (mergeStep rKey ([] : List (Msg Nat))
        (Msg.mk Kind.add 1 0 10 [2] 0)).store (Msg.mk Kind.remove 1 0 10 [1] 0)).out =
      Outcome.merged [Msg.mk Kind.add 1 0 10 [2] 0] ∧
    liveAt (mergeStep rKey (mergeStep rKey ([] : List (Msg Nat))
        (Msg.mk Kind.add 1 0 10 [2] 0)).store (Msg.mk Kind.remove 1 0 10 [1] 0)).store
      1 0 = some (Msg.mk Kind.remove 1 0 10 [1] 0) :=
  ⟨(claim_C2 (Msg.mk Kind.add 1 0 10 [2] 0) (Msg.mk Kind.remove 1 0 10 [1] 0)
      (by decide) (by decide) (by decide) (by decide) (by decide) (by decide)).1,
   (claim_C2 (Msg.mk Kind.add 1 0 10 [2] 0) (Msg.mk Kind.remove 1 0 10 [1] 0)
      (by decide) (by decide) (by decide) (by decide) (by decide) (by decide)).2.1⟩

/-- C3: convergence — for any two permutations of the same hash-injective
finite message collection, folding them through `merge` (ignoring
rejections) produces the identical live record for every conflict slot, in
both the Reaction store and the Cast store. -/
theorem claim_C3 {σ : Type} [DecidableEq σ] {l₁ l₂ : List (Msg σ)}
    (hperm : l₁.Perm l₂) (hinj : HashInj l₁) (fid : Nat) (slot : σ) :
    liveAt (mergeAll rKey l₁) fid slot = liveAt (mergeAll rKey l₂) fid slot ∧
    liveAt (mergeAll cKey l₁) fid slot = liveAt (mergeAll cKey l₂) fid slot :=
  ⟨mergeAll_perm_liveAt (fun _ _ h => rKey_eq_hash h) hperm hinj fid slot,
   mergeAll_perm_liveAt (fun _ _ h => cKey_eq_hash h) hperm hinj fid slot⟩

/-- C3 (witness): two orders of a concrete two-message collection agree. -/
theorem claim_C3_witness :
    liveAt (mergeAll rKey [Msg.mk Kind.add 1 (0 : Nat) 10 [2] 0,
        Msg.mk Kind.remove 1 0 10 [1] 0]) 1 0 =
      liveAt (mergeAll rKey [Msg.mk Kind.remove 1 (0 : Nat) 10 [1] 0,
        Msg.mk Kind.add 1 0 10 [2] 0]) 1 0 ∧
    liveAt (mergeAll cKey [Msg.mk Kind.add 1 (0 : Nat) 10 [2] 0,
        Msg.mk Kind.remove 1 0 10 [1] 0]) 1 0 =
      liveAt (mergeAll cKey [Msg.mk Kind.remove 1 (0 : Nat) 10 [1] 0,
        Msg.mk Kind.add 1 0 10 [2] 0]) 1 0 :=
  claim_C3 (by decide) (by unfold HashInj; decide) 1 0

/-- C4: between two conflicting messages of the same kind with equal
timestamps, the byte-lexicographically larger hash wins and the other is
rejected or superseded, regardless of arrival order, in both stores. -/
theorem claim_C4 {σ : Type} [DecidableEq σ] (w l : Msg σ)
    (hk : w.kind = l.kind) (hfid : w.fid = l.fid) (hslot : w.slot = l.slot)
    (hts : w.ts = l.ts) (hh : bytesCompare w.hash l.hash = .gt) :
    (mergeStep rKey (mergeStep rKey [] l).store w).out = Outcome.merged [l] ∧
    liveAt (mergeStep rKey (mergeStep rKey [] l).store w).store w.fid w.slot = some w ∧
    (mergeStep rKey (mergeStep rKey [] w).store l).out = Outcome.conflict w.kind ∧
    liveAt (mergeStep rKey (mergeStep rKey [] w).store l).store w.fid w.slot = some w ∧
    (mergeStep cKey (mergeStep cKey [] l).store w).out = Outcome.merged [l] ∧
    liveAt (mergeStep cKey (mergeStep cKey [] l).store w).store w.fid w.slot = some w ∧
    (mergeStep cKey (mergeStep cKey [] w).store l).out = Outcome.conflict w.kind ∧
    liveAt (mergeStep cKey (mergeStep cKey [] w).store l).store w.fid w.slot = some w := by
  have hne : w.hash ≠ l.hash := bytesCompare_gt_ne hh
  have hlw : bytesCompare l.hash w.hash = .lt := by
    have := bytesCompare_swap w.hash l.hash
    rw [hh] at this
    exact this.symm
  have hrlt : keyCompare (rKey l) (rKey w) = .lt :=
    keyCompare_lt_iff.mpr (Or.inr ⟨hts.symm, Or.inr ⟨congrArg kindRank hk.symm, hlw⟩⟩)
  have hclt : keyCompare (cKey l) (cKey w) = .lt :=
    keyCompare_lt_iff.mpr
      (Or.inr ⟨congrArg kindRank hk.symm, Or.inr ⟨hts.symm, hlw⟩⟩)
  have hdlw : hashDup [l] w = false := by
    have hlh : l.hash ≠ w.hash := fun hc => hne hc.symm
    simp [hashDup, hlh]
  have hdwl : hashDup [w] l = false := by
    simp [hashDup, hne]
  have hllw : liveAt [l] w.fid w.slot = some l := by
    unfold liveAt
    rw [List.find?_cons_of_pos _ (by simp [hfid.symm, hslot.symm])]
  have hlwl : liveAt [w] l.fid l.slot = some w := by
    unfold liveAt
    rw [List.find?_cons_of_pos _ (by simp [hfid, hslot])]
  have hlww : liveAt [w] w.fid w.slot = some w := by
    unfold liveAt
    rw [List.find?_cons_of_pos _ (by simp)]
  have hstepW : ∀ key : Msg σ → K, mergeStep key ([] : List (Msg σ)) w = ⟨[w], .merged []⟩ :=
    fun key => mergeStep_of_none rfl rfl
  have hstepL : ∀ key : Msg σ → K, mergeStep key ([] : List (Msg σ)) l = ⟨[l], .merged []⟩ :=
    fun key => mergeStep_of_none rfl rfl
  have hrwin : mergeStep rKey [l] w = ⟨insertMsg [l] w, .merged [l]⟩ :=
    mergeStep_of_win hdlw hllw (keyCompare_gt_iff_lt.mpr hrlt)
  have hcwin : mergeStep cKey [l] w = ⟨insertMsg [l] w, .merged [l]⟩ :=
    mergeStep_of_win hdlw hllw (keyCompare_gt_iff_lt.mpr hclt)
  have hrlose : mergeStep rKey [w] l = ⟨[w], .conflict w.kind⟩ :=
    mergeStep_of_lose hdwl hlwl (keyCompare_ne_gt_of_lt hrlt)
  have hclose : mergeStep cKey [w] l = ⟨[w], .conflict w.kind⟩ :=
    mergeStep_of_lose hdwl hlwl (keyCompare_ne_gt_of_lt hclt)
  rw [hstepW rKey, hstepW cKey, hstepL rKey, hstepL cKey]
  dsimp only
  rw [hrwin, hcwin, hrlose, hclose]
  dsimp only
  exact ⟨rfl, liveAt_insertMsg_self [l] w, rfl, hlww, rfl,
    liveAt_insertMsg_self [l] w, rfl, hlww⟩

/-- C4 (witness): concrete equal-timestamp same-kind pair; the larger hash
wins. -/
theorem claim_C4_witness :
    (mergeStep rKey (mergeStep rKey ([] : List (Msg Nat))
        (Msg.mk Kind.add 1 0 10 [1] 0)).store (Msg.mk Kind.add 1 0 10 [2] 0)).out =
      Outcome.merged [Msg.mk Kind.add 1 0 10 [1] 0] ∧
    liveAt (mergeStep rKey (mergeStep rKey ([] : List (Msg Nat))
        (Msg.mk Kind.add 1 0 10 [1] 0)).store (Msg.mk Kind.add 1 0 10 [2] 0)).store
      1 0 = some (Msg.mk Kind.add 1 0 10 [2] 0) :=
  ⟨(claim_C4 (Msg.mk Kind.add 1 0 10 [2] 0) (Msg.mk Kind.add 1 0 10 [1] 0)
      (by decide) (by decide) (by decide) (by decide) (by decide)).1,
   (claim_C4 (Msg.mk Kind.add 1 0 10 [2] 0) (Msg.mk Kind.add 1 0 10 [1] 0)
      (by decide) (by decide) (by decide) (by decide) (by decide)).2.1⟩

/-- C5: once a message has been merged, merging the identical message again
is rejected as a duplicate, leaves the store unchanged, emits no event, and
surfaces the `bad_request.duplicate` error. -/
theorem claim_C5 {σ : Type} [DecidableEq σ] (key : Msg σ → K) (s : List (Msg σ))
    (m : Msg σ) (sup : List (Msg σ))
    (hmerged : (mergeStep key s m).out = Outcome.merged sup) :
    mergeStep key (mergeStep key s m).store m =
      ⟨(mergeStep key s m).store, Outcome.duplicate⟩ ∧
    eventsOf m (Outcome.duplicate : Outcome σ) = [] ∧
    reactionMergeError Outcome.duplicate =
      some ("bad_request.duplicate", duplicateText) := by
  obtain ⟨_, hstore, _⟩ := mergeStep_merged hmerged
  have hmem : m ∈ (mergeStep key s m).store := by
    rw [hstore]
    exact List.mem_cons_self m _
  have hdup : hashDup (mergeStep key s m).store m = true := by
    unfold hashDup
    rw [List.any_eq_true]
    exact ⟨m, hmem, by simp⟩
  exact ⟨mergeStep_of_dup hdup, rfl, rfl⟩

/-- C5 (witness): a concrete message merged twice. -/
theorem claim_C5_witness :
    mergeStep rKey (mergeStep rKey ([] : List (Msg Nat))
        (Msg.mk Kind.add 1 0 10 [1] 0)).store (Msg.mk Kind.add 1 0 10 [1] 0) =
      ⟨(mergeStep rKey ([] : List (Msg Nat)) (Msg.mk Kind.add 1 0 10 [1] 0)).store,
        Outcome.duplicate⟩ :=
  (claim_C5 rKey [] (Msg.mk Kind.add 1 0 10 [1] 0) [] (by decide)).1

/-- C6: a message that loses the conflict-resolution comparison is rejected
with a conflict error that carries the kind of the existing record it lost
to, the store is entirely unchanged (a losing message that was not live
stays not live), and no event is emitted; the error texts distinguish the
existing kinds. -/
theorem claim_C6 {σ : Type} [DecidableEq σ] (key : Msg σ → K) (s : List (Msg σ))
    (m e : Msg σ) (hd : hashDup s m = false)
    (hl : liveAt s m.fid m.slot = some e)
    (hlose : ¬keyCompare (key m) (key e) = .gt) :
    mergeStep key s m = ⟨s, Outcome.conflict e.kind⟩ ∧
    eventsOf m (Outcome.conflict e.kind : Outcome σ) = [] ∧
    (¬m ∈ s → ¬m ∈ (mergeStep key s m).store) ∧
    reactionMergeError (Outcome.conflict Kind.add) =
      some ("bad_request.conflict", reactionConflictText Kind.add) ∧
    reactionMergeError (Outcome.conflict Kind.remove) =
      some ("bad_request.conflict", reactionConflictText Kind.remove) ∧
    reactionConflictText Kind.add ≠ reactionConflictText Kind.remove ∧
    castConflictText Kind.add Kind.remove ≠ castConflictText Kind.add Kind.add ∧
    castConflictText Kind.remove Kind.remove ≠ castConflictText Kind.remove Kind.add := by
  have hres := mergeStep_of_lose hd hl hlose
  refine ⟨hres, rfl, ?_, rfl, rfl, by decide, by decide, by decide⟩
  intro hnot
  rw [hres]
  exact hnot

/-- C6 (witness): a concrete losing merge (earlier Add against a live later
Add in the Reaction store). -/
theorem claim_C6_witness :
    mergeStep rKey [Msg.mk Kind.add 1 (0 : Nat) 11 [2] 0]
        (Msg.mk Kind.add 1 (0 : Nat) 10 [1] 0) =
      ⟨[Msg.mk Kind.add 1 (0 : Nat) 11 [2] 0], Outcome.conflict Kind.add⟩ :=
  (claim_C6 rKey [Msg.mk Kind.add 1 (0 : Nat) 11 [2] 0]
    (Msg.mk Kind.add 1 (0 : Nat) 10 [1] 0) (Msg.mk Kind.add 1 (0 : Nat) 11 [2] 0)
    (by decide) (by decide) (by decide)).1

/-- C7: `pruneMessages(fid)` leaves at most `pruneSizeLimit` live messages
for the fid, every remaining message within the time bound, and removes
exactly the chronologically-earliest (ascending TsHash, kinds interleaved)
messages needed: each pruned message was popped while the size bound was
still exceeded or was itself older than the time bound, so nothing is
over-pruned; when both bounds already hold it is a no-op returning the
empty list. -/
theorem claim_C7 {σ : Type} [DecidableEq σ] (s : List (Msg σ)) (fid sl tl now : Nat) :
    (liveFor (pruneMessages s fid sl tl now).1 fid).length ≤ sl ∧
    (∀ y ∈ liveFor (pruneMessages s fid sl tl now).1 fid, now ≤ y.ts + tl) ∧
    s.Perm ((pruneMessages s fid sl tl now).2 ++ (pruneMessages s fid sl tl now).1) ∧
    (∀ p ∈ (pruneMessages s fid sl tl now).2, p.fid = fid) ∧
    List.Pairwise ChronLe (pruneMessages s fid sl tl now).2 ∧
    (∀ p ∈ (pruneMessages s fid sl tl now).2,
      ∀ y ∈ liveFor (pruneMessages s fid sl tl now).1 fid, ChronLe p y) ∧
    (∀ (i : Nat) (p : Msg σ), (pruneMessages s fid sl tl now).2.get? i = some p →
      sl < (liveFor s fid).length - i ∨ p.ts + tl < now) ∧
    ((liveFor s fid).length ≤ sl ∧ (∀ y ∈ liveFor s fid, now ≤ y.ts + tl) →
      pruneMessages s fid sl tl now = (s, [])) := by
  obtain ⟨ha, hb, hcc, hd, he, hf, hg⟩ := pruneMessages_spec s fid sl tl now
  refine ⟨hb, ?_, ha, hd, he, hf, ?_, ?_⟩
  · intro y hy
    have := hcc y hy
    simp only [tooOld, decide_eq_true_eq] at this
    omega
  · intro i p hp
    rcases hg i p hp with hx | hx
    · exact Or.inl hx
    · simp only [tooOld, decide_eq_true_eq] at hx
      exact Or.inr hx
  · rintro ⟨h1, h2⟩
    refine pruneMessages_noop s fid sl tl now h1 ?_
    intro y hy
    have := h2 y hy
    simp only [tooOld, decide_eq_true_eq]
    omega

/-- C7 (witness): a store already within both bounds is untouched. -/
theorem claim_C7_witness :
    pruneMessages ([Msg.mk Kind.add 1 0 100 [1] 0] : List (Msg Nat)) 1 3 50 120 =
      ([Msg.mk Kind.add 1 0 100 [1] 0], []) :=
  (claim_C7 [Msg.mk Kind.add 1 (0 : Nat) 100 [1] 0] 1 3 50 120).2.2.2.2.2.2.2
    ⟨by decide, by decide⟩

/-- C8: a successful merge emits exactly one event carrying the winner and
the records it displaced — the empty list when the slot was free, the
singleton previous winner otherwise — while duplicate and conflict
rejections emit nothing. -/
theorem claim_C8 {σ : Type} [DecidableEq σ] (key : Msg σ → K) (s : List (Msg σ))
    (m : Msg σ) :
    (∀ sup, (mergeStep key s m).out = Outcome.merged sup →
      eventsOf m (mergeStep key s m).out = [(m, sup)] ∧
      ((sup = [] ∧ liveAt s m.fid m.slot = none) ∨
        ∃ e, sup = [e] ∧ liveAt s m.fid m.slot = some e)) ∧
    ((mergeStep key s m).out = Outcome.duplicate →
      eventsOf m (mergeStep key s m).out = []) ∧
    (∀ k, (mergeStep key s m).out = Outcome.conflict k →
      eventsOf m (mergeStep key s m).out = []) := by
  refine ⟨?_, ?_, ?_⟩
  · intro sup h
    obtain ⟨_, _, hcases⟩ := mergeStep_merged h
    refine ⟨by rw [h]; rfl, ?_⟩
    rcases hcases with ⟨h1, h2⟩ | ⟨e, h1, h2, _⟩
    · exact Or.inl ⟨h1, h2⟩
    · exact Or.inr ⟨e, h1, h2⟩
  · intro h
    rw [h]
    rfl
  · intro k h
    rw [h]
    rfl

/-- C8 (witness): a merge into the empty store emits one event with no
superseded records. -/
theorem claim_C8_witness :
    eventsOf (Msg.mk Kind.add 1 (0 : Nat) 10 [1] 0)
        (mergeStep rKey [] (Msg.mk Kind.add 1 (0 : Nat) 10 [1] 0)).out =
      [(Msg.mk Kind.add 1 (0 : Nat) 10 [1] 0, [])] :=
  ((claim_C8 rKey [] (Msg.mk Kind.add 1 (0 : Nat) 10 [1] 0)).1 [] (by decide)).1

/-- C9: in every store state reachable by merge, prune and revoke from the
empty store, each conflict slot of each fid carries at most one live Add,
and a live Remove for a slot excludes any live Add for that slot. -/
theorem claim_C9 {σ : Type} [DecidableEq σ] {key : Msg σ → K} {s : List (Msg σ)}
    (hreach : Reachable key s) (fid : Nat) (slot : σ) :
    (s.filter (fun z => decide (z.fid = fid ∧ z.slot = slot ∧ z.kind = Kind.add))).length ≤ 1 ∧
    (∀ r ∈ s, r.fid = fid → r.slot = slot → r.kind = Kind.remove →
      ∀ a ∈ s, a.fid = fid → a.slot = slot → ¬a.kind = Kind.add) := by
  have hu : SlotUnique s := reachable_slotUnique hreach
  constructor
  · cases hfil : s.filter
        (fun z => decide (z.fid = fid ∧ z.slot = slot ∧ z.kind = Kind.add)) with
    | nil => simp
    | cons a t =>
      cases t with
      | nil => simp
      | cons b t2 =>
        exfalso
        have hpw : (a :: b :: t2).Pairwise
            (fun x y : Msg σ => ¬(x.fid = y.fid ∧ x.slot = y.slot)) := by
          rw [← hfil]
          exact hu.filter _
        have hr := (List.pairwise_cons.mp hpw).1 b (List.mem_cons_self b t2)
        have hma : a ∈ s.filter
            (fun z => decide (z.fid = fid ∧ z.slot = slot ∧ z.kind = Kind.add)) := by
          rw [hfil]
          exact List.mem_cons_self a _
        have hmb : b ∈ s.filter
            (fun z => decide (z.fid = fid ∧ z.slot = slot ∧ z.kind = Kind.add)) := by
          rw [hfil]
          exact List.mem_cons_of_mem a (List.mem_cons_self b t2)
        have hpa := (List.mem_filter.mp hma).2
        have hpb := (List.mem_filter.mp hmb).2
        simp only [decide_eq_true_eq] at hpa hpb
        exact hr ⟨hpa.1.trans hpb.1.symm, hpa.2.1.trans hpb.2.1.symm⟩
  · intro r hrs hrf hrsl hrk a has haf hasl hak
    have hra : r = a :=
      slotUnique_eq_of_mem hu hrs has (hrf.trans haf.symm) (hrsl.trans hasl.symm)
    rw [hra, hak] at hrk
    cases hrk

/-- C9 (witness): the invariant evaluated on the reachable store obtained by
one merge into the empty store. -/
theorem claim_C9_witness :
    ((mergeStep rKey ([] : List (Msg Nat)) (Msg.mk Kind.add 1 0 10 [1] 0)).store.filter
        (fun z => decide (z.fid = 1 ∧ z.slot = 0 ∧ z.kind = Kind.add))).length ≤ 1 ∧
    (∀ r ∈ (mergeStep rKey ([] : List (Msg Nat)) (Msg.mk Kind.add 1 0 10 [1] 0)).store,
      r.fid = 1 → r.slot = 0 → r.kind = Kind.remove →
      ∀ a ∈ (mergeStep rKey ([] : List (Msg Nat)) (Msg.mk Kind.add 1 0 10 [1] 0)).store,
        a.fid = 1 → a.slot = 0 → ¬a.kind = Kind.add) :=
  claim_C9 (Reachable.merge [] (Msg.mk Kind.add 1 0 10 [1] 0) Reachable.empty) 1 0

/-- C10: in every reachable Reaction-store state the by-target-cast index
resolves to exactly the live ReactionAdd messages targeting the cast — a
live ReactionRemove never appears there, while it remains retrievable
through `getReactionRemove`. -/
theorem claim_C10 {st : RStore} (hreach : ReachableR st) (target : Nat) :
    (∀ m, m ∈ getReactionsByTargetCast st target ↔
      m ∈ st.msgs ∧ m.kind = Kind.add ∧ m.slot.2 = target) ∧
    (∀ r ∈ st.msgs, r.kind = Kind.remove →
      getReactionRemove st r.fid r.slot.1 r.slot.2 = some r) := by
  obtain ⟨hu, hh, hidx⟩ := reachableR_inv hreach
  constructor
  · intro m
    constructor
    · intro hm
      obtain ⟨e, he, hf⟩ := List.mem_filterMap.mp hm
      by_cases ht : e.1.1 = target
      · rw [if_pos ht] at hf
        obtain ⟨w, hws, hwk, hwe⟩ := (hidx e).mp he
        subst hwe
        have hmm := List.mem_of_find?_eq_some hf
        have hmp := List.find?_some hf
        simp only [decide_eq_true_eq] at hmp
        have hmw : m = w := hashDistinct_eq_of_mem hh hmm hws hmp.2.2
        subst hmw
        exact ⟨hmm, hwk, ht⟩
      · rw [if_neg ht] at hf
        cases hf
    · rintro ⟨hm, hk, ht⟩
      refine List.mem_filterMap.mpr ⟨entryOf m, (hidx (entryOf m)).mpr ⟨m, hm, hk, rfl⟩, ?_⟩
      simp only [entryOf]
      rw [if_pos ht]
      refine find?_eq_some_of_unique hm (by simp [entryOf]) ?_
      intro z hz hp
      simp only [decide_eq_true_eq] at hp
      exact hashDistinct_eq_of_mem hh hz hm hp.2.2
  · intro r hrs hrk
    refine find?_eq_some_of_unique hrs (by simp [hrk]) ?_
    intro z hz hp
    simp only [decide_eq_true_eq] at hp
    exact slotUnique_eq_of_mem hu hz hrs hp.2.1 hp.2.2

/-- C10 (witness): the index of the reachable state holding one live
ReactionAdd resolves exactly that Add for its target. -/
theorem claim_C10_witness :
    (∀ m, m ∈ getReactionsByTargetCast
        (rMerge ⟨[], []⟩ (Msg.mk Kind.add 1 (7, 5) 10 [1] 0)).1 5 ↔
      m ∈ (rMerge ⟨[], []⟩ (Msg.mk Kind.add 1 (7, 5) 10 [1] 0)).1.msgs ∧
        m.kind = Kind.add ∧ m.slot.2 = 5) ∧
    (∀ r ∈ (rMerge ⟨[], []⟩ (Msg.mk Kind.add 1 (7, 5) 10 [1] 0)).1.msgs,
      r.kind = Kind.remove →
      getReactionRemove (rMerge ⟨[], []⟩ (Msg.mk Kind.add 1 (7, 5) 10 [1] 0)).1
        r.fid r.slot.1 r.slot.2 = some r) :=
  claim_C10 (ReachableR.merge ⟨[], []⟩ (Msg.mk Kind.add 1 (7, 5) 10 [1] 0)
    ReachableR.empty) 5

end Hubble
